import Mathlib

/-!
The BinaryString widget of edb-debugger (src/BinaryString.cpp).

A shallow embedding of the widget: three line edits (character view `txtAscii`,
16-bit-unit view `txtUTF16`, hex view `txtHex`), the keep-size check box, and the
member variables `mode_`, `requestedMaxLength_`, `valueOriginalLength_`.

Conventions of the embedding.

* A `QString` is the list of its 16-bit code units, each a natural number; a
  `QByteArray` is the list of its bytes. Conversions to `uint8_t`, `quint16`
  and `uint` are explicit remainders.
* The C++ `int` values (lengths and caps) are integers; the one product the source
  forms, `n * charHexLength`, is reduced to the 32 bits of an `int` (`wrapInt32`).
* The Qt functions the source calls are embedded after their documented
  behaviour: `QString::split`, `QString::simplified`, `QString::toUInt`,
  `QString::toLatin1`, `QString::fromLatin1`, `QString::left`,
  `QLineEdit::setText`, `QLineEdit::setMaxLength`.
* The platform is little-endian (the `Q_LITTLE_ENDIAN` branches).
-/

namespace Edb

/-- A string of 16-bit code units. -/
abbrev QString := List Nat

/-- A byte array. -/
abbrev QByteArray := List Nat

/-! ## Qt string functions -/

/-- The code unit of the space character. -/
def SPACE : Nat := 32

/-- Qt `QChar::isSpace`: the ASCII controls 9..13, the space, U+0085, U+00A0 and
the characters of the Unicode separator categories. -/
def isSpace (c : Nat) : Bool :=
  c == 0x20 || (0x09 ≤ c && c ≤ 0x0d) || c == 0x85 || c == 0xa0 || c == 0x1680 ||
  (0x2000 ≤ c && c ≤ 0x200a) || c == 0x2028 || c == 0x2029 || c == 0x202f ||
  c == 0x205f || c == 0x3000

/-- Splitting of a string at the characters satisfying `p`, empty parts skipped;
`cur` is the part being read. -/
def splitSkip (p : Nat → Bool) : QString → QString → List QString
  | [], cur => if cur.isEmpty then [] else [cur]
  | c :: cs, cur =>
    if p c then
      (if cur.isEmpty then splitSkip p cs [] else cur :: splitSkip p cs [])
    else splitSkip p cs (cur ++ [c])

/-- Qt `text.split(" ", QString::SkipEmptyParts)`. -/
def split (text : QString) : List QString :=
  splitSkip (fun c => c == SPACE) text []

/-- Qt `QString::simplified`: white space removed from both ends and every inner
run of white space replaced by one space. -/
def simplified (s : QString) : QString :=
  List.intercalate [SPACE] (splitSkip isSpace s [])

/-- Qt `QString::left(n)`: the first `n` code units; the whole string when `n` is
negative or not less than the size. -/
def left (s : QString) (n : Int) : QString :=
  if n < 0 then s else s.take n.toNat

/-- Qt `QString::toLatin1`: a code unit above 0xff has no Latin-1 form and is
replaced by a question mark. -/
def toLatin1 (s : QString) : QByteArray :=
  s.map (fun c => if c > 0xff then 0x3f else c)

/-- Qt `QString::fromLatin1(data, size)`: every byte becomes the code unit of the same
value. -/
def fromLatin1 (data : QByteArray) : QString :=
  data.map (fun b => b % 256)

/-- The lower-case hexadecimal digit of a value below 16. -/
def hexDigit (d : Nat) : Nat :=
  if d < 10 then 48 + d else 87 + d

/-- The printf conversion `%02x`: lower-case hexadecimal, zero-padded to two digits. -/
def sprintf_02x (v : Nat) : QString :=
  if v < 256 then [hexDigit (v / 16), hexDigit (v % 16)]
  else (Nat.toDigits 16 v).map Char.toNat

/-- The value of a hexadecimal digit character, either case. -/
def hexDigitVal (c : Nat) : Option Nat :=
  if 48 ≤ c ∧ c ≤ 57 then some (c - 48)
  else if 97 ≤ c ∧ c ≤ 102 then some (c - 87)
  else if 65 ≤ c ∧ c ≤ 70 then some (c - 55)
  else none

/-- The number written by a string of hexadecimal digits, `acc` being the value read
so far; `none` when a character is not a hexadecimal digit. -/
def parseHexDigits : QString → Nat → Option Nat
  | [], acc => some acc
  | c :: cs, acc =>
    match hexDigitVal c with
    | some d => parseHexDigits cs (acc * 16 + d)
    | none => none

/-- White space removed from both ends. -/
def trimmed (s : QString) : QString :=
  ((s.dropWhile isSpace).reverse.dropWhile isSpace).reverse

/-- An optional leading plus sign removed. -/
def dropPlus : QString → QString
  | 43 :: r => r
  | t => t

/-- An optional leading `0x` or `0X` removed. -/
def dropHexMark : QString → QString
  | 48 :: 120 :: r => r
  | 48 :: 88 :: r => r
  | t => t

/-- Qt `s.toUInt(nullptr, 16)`: surrounding white space is ignored, a plus sign and
a `0x` mark may precede the digits, and the result is 0 when the conversion fails,
which includes a value that does not fit 32 bits. -/
def toUInt16 (s : QString) : Nat :=
  match dropHexMark (dropPlus (trimmed s)) with
  | [] => 0
  | t =>
    match parseHexDigits t 0 with
    | some v => if v < 2 ^ 32 then v else 0
    | none => 0

/-! ## Widgets -/

/-- A line edit: its text and its maximum length. -/
structure QLineEdit where
  text : QString
  maxLength : Int
  deriving DecidableEq, Repr

/-- Qt `QLineEdit::setText`: the text is truncated to the maximum length. -/
def QLineEdit.setText (w : QLineEdit) (t : QString) : QLineEdit :=
  { w with text := if t.isEmpty then t else left t w.maxLength }

/-- Qt `QLineEdit::setMaxLength`: the limit is stored and the present text is set
again, so that it is truncated to the new limit. -/
def QLineEdit.setMaxLength (w : QLineEdit) (n : Int) : QLineEdit :=
  QLineEdit.setText { w with maxLength := n } w.text

/-- The states of a check box. -/
inductive CheckState where
  | Unchecked
  | PartiallyChecked
  | Checked
  deriving DecidableEq, Repr

/-- The integer of a check state, as passed to the slot. -/
def CheckState.toInt : CheckState → Int
  | .Unchecked => 0
  | .PartiallyChecked => 1
  | .Checked => 2

/-- The keep-size check box: shown or hidden, and its check state. -/
structure QCheckBox where
  visible : Bool
  checkState : CheckState
  deriving DecidableEq, Repr

/-- The widgets of the form. -/
structure Ui where
  txtAscii : QLineEdit
  txtUTF16 : QLineEdit
  txtHex : QLineEdit
  keepSize : QCheckBox
  deriving DecidableEq, Repr

/-- The two modes of the editor. -/
inductive Mode where
  | LengthLimited
  | MemoryEditing
  deriving DecidableEq, Repr

/-- The editor: its widgets and member variables. -/
structure BinaryString where
  ui : Ui
  mode_ : Mode
  requestedMaxLength_ : Int
  valueOriginalLength_ : Int
  deriving DecidableEq, Repr

/-! ## The source functions -/

/-- The constant `charHexLength`. -/
def charHexLength : Int := 3

/-- The constant `UNLIMITED_MAX_LENGTH`. -/
def UNLIMITED_MAX_LENGTH : Int := Int.tdiv 32767 charHexLength

/-- The value a 32-bit `int` holds after an arithmetic result `x`: `x` itself when it
lies between -2147483648 and 2147483647, and otherwise `x` reduced modulo 2^32 into
that range, which is what the hardware leaves (the C++ standard does not define the
result of a signed overflow). -/
def wrapInt32 (x : Int) : Int :=
  (x + 2147483648) % 4294967296 - 2147483648

/-- Source `BinaryString::setEntriesMaxLength`; the product `n * charHexLength` is an
`int`. -/
def setEntriesMaxLength (st : BinaryString) (n : Int) : BinaryString :=
  let ui1 := { st.ui with txtAscii := st.ui.txtAscii.setMaxLength n }
  let ui2 := { ui1 with txtUTF16 := ui1.txtUTF16.setMaxLength (Int.tdiv n 2) }
  let ui3 := { ui2 with txtHex := ui2.txtHex.setMaxLength (wrapInt32 (n * charHexLength)) }
  { st with ui := ui3 }

/-- Source `BinaryString::setMaxLength`. -/
def setMaxLength (st : BinaryString) (n : Int) : BinaryString :=
  let st1 := { st with requestedMaxLength_ := n }
  if n ≠ 0 then
    let st2 := { st1 with mode_ := Mode.LengthLimited }
    let st3 := { st2 with ui := { st2.ui with keepSize := { st2.ui.keepSize with visible := false } } }
    setEntriesMaxLength st3 n
  else
    let st2 := { st1 with mode_ := Mode.MemoryEditing }
    let st3 := { st2 with ui := { st2.ui with keepSize := { st2.ui.keepSize with visible := true } } }
    setEntriesMaxLength st3 UNLIMITED_MAX_LENGTH

/-- Source `BinaryString::on_keepSize_stateChanged`; the argument is unused. -/
def on_keepSize_stateChanged (st : BinaryString) (_state : Int) : BinaryString :=
  if st.mode_ ≠ Mode.MemoryEditing then st
  else if st.ui.keepSize.checkState = CheckState.Unchecked then
    setEntriesMaxLength st UNLIMITED_MAX_LENGTH
  else
    setEntriesMaxLength st st.valueOriginalLength_

/-- The update of `utf16Char` by one byte on a little-endian platform:
`(utf16Char >> 8) | (ch << 8)`, stored in 16 bits. -/
def utf16Step (utf16Char ch : Nat) : Nat :=
  ((utf16Char >>> 8) ||| (ch <<< 8)) % 65536

/-- The loop of `on_txtAscii_textEdited` over the bytes still to read, with the values
of `textHex`, `textUTF16`, `utf16Char` and `counter`; returns the final `textHex`
and `textUTF16`. -/
def asciiLoop : QByteArray → QString → QString → Nat → Nat → QString × QString
  | [], textHex, textUTF16, _, _ => (textHex, textUTF16)
  | b :: p, textHex, textUTF16, utf16Char, counter =>
    let ch := b % 256
    let textHex1 := textHex ++ (sprintf_02x (ch &&& 0xff) ++ [SPACE])
    let utf16Char1 := utf16Step utf16Char ch
    let textUTF161 := if counter &&& 1 ≠ 0 then textUTF16 ++ [utf16Char1] else textUTF16
    asciiLoop p textHex1 textUTF161 utf16Char1 (counter + 1)

/-- Source `BinaryString::on_txtAscii_textEdited`. -/
def on_txtAscii_textEdited (st : BinaryString) (text : QString) : BinaryString :=
  let p := toLatin1 text
  let r := asciiLoop p [] [] 0 0
  let ui1 := { st.ui with txtHex := st.ui.txtHex.setText (simplified r.1) }
  let ui2 := { ui1 with txtUTF16 := ui1.txtUTF16.setText r.2 }
  { st with ui := ui2 }

/-- The loop of `on_txtUTF16_textEdited` over the code units still to read, with the
values of `textAscii` and `textHex`. -/
def utf16Loop : QString → QString → QString → QString × QString
  | [], textAscii, textHex => (textAscii, textHex)
  | i :: text, textAscii, textHex =>
    let ch := i % 65536
    let textAscii1 := textAscii ++ [ch &&& 0xff]
    let textAscii2 := textAscii1 ++ [(ch >>> 8) &&& 0xff]
    let textHex1 := textHex ++
      (sprintf_02x (ch &&& 0xff) ++ [SPACE] ++ sprintf_02x ((ch >>> 8) &&& 0xff) ++ [SPACE])
    utf16Loop text textAscii2 textHex1

/-- Source `BinaryString::on_txtUTF16_textEdited`. -/
def on_txtUTF16_textEdited (st : BinaryString) (text : QString) : BinaryString :=
  let r := utf16Loop text [] []
  let ui1 := { st.ui with txtHex := st.ui.txtHex.setText (simplified r.2) }
  let ui2 := { ui1 with txtAscii := ui1.txtAscii.setText r.1 }
  { st with ui := ui2 }

/-- The loop of `on_txtHex_textEdited` over the tokens still to read, with the values
of `textAscii`, `textUTF16`, `utf16Char` and `counter`. -/
def hexLoop : List QString → QString → QString → Nat → Nat → QString × QString
  | [], textAscii, textUTF16, _, _ => (textAscii, textUTF16)
  | s :: list1, textAscii, textUTF16, utf16Char, counter =>
    let ch := toUInt16 s % 256
    let utf16Char1 := utf16Step utf16Char ch
    let textAscii1 := textAscii ++ [ch]
    let textUTF161 := if counter &&& 1 ≠ 0 then textUTF16 ++ [utf16Char1] else textUTF16
    hexLoop list1 textAscii1 textUTF161 utf16Char1 (counter + 1)

/-- Source `BinaryString::on_txtHex_textEdited`. -/
def on_txtHex_textEdited (st : BinaryString) (text : QString) : BinaryString :=
  let list1 := split text
  let r := hexLoop list1 [] [] 0 0
  let ui1 := { st.ui with txtUTF16 := st.ui.txtUTF16.setText r.2 }
  let ui2 := { ui1 with txtAscii := ui1.txtAscii.setText r.1 }
  { st with ui := ui2 }

/-- The loop of `value` over the tokens still to read, with the value of `ret`. -/
def valueLoop : List QString → QByteArray → QByteArray
  | [], ret => ret
  | i :: list1, ret => valueLoop list1 (ret ++ [toUInt16 i % 256])

/-- Source `BinaryString::value`. -/
def value (st : BinaryString) : QByteArray :=
  valueLoop (split st.ui.txtHex.text) []

/-- Source `BinaryString::setValue`. -/
def setValue (st : BinaryString) (data : QByteArray) : BinaryString :=
  let st1 := { st with valueOriginalLength_ := (data.length : Int) }
  let st2 := on_keepSize_stateChanged st1 st1.ui.keepSize.checkState.toInt
  let temp := fromLatin1 data
  let st3 := { st2 with ui := { st2.ui with txtAscii := st2.ui.txtAscii.setText temp } }
  on_txtAscii_textEdited st3 temp

/-- Source `BinaryString::setShowKeepSize`. -/
def setShowKeepSize (st : BinaryString) (visible : Bool) : BinaryString :=
  { st with ui := { st.ui with keepSize := { st.ui.keepSize with visible := visible } } }

/-- Source `BinaryString::showKeepSize`. -/
def showKeepSize (st : BinaryString) : Bool :=
  st.ui.keepSize.visible

/-! ## User edits

A line edit emits `textEdited(text)` after the user changed its text to `text`; the
slot then runs with that text. -/

/-- The character view holds `text` after the user typed it. -/
def typeAscii (st : BinaryString) (text : QString) : BinaryString :=
  { st with ui := { st.ui with txtAscii := { st.ui.txtAscii with text := text } } }

/-- The unit view holds `text` after the user typed it. -/
def typeUTF16 (st : BinaryString) (text : QString) : BinaryString :=
  { st with ui := { st.ui with txtUTF16 := { st.ui.txtUTF16 with text := text } } }

/-- The hex view holds `text` after the user typed it. -/
def typeHex (st : BinaryString) (text : QString) : BinaryString :=
  { st with ui := { st.ui with txtHex := { st.ui.txtHex with text := text } } }

/-- The user sets the character view to `text` and the slot runs. -/
def editAscii (st : BinaryString) (text : QString) : BinaryString :=
  on_txtAscii_textEdited (typeAscii st text) text

/-- The user sets the unit view to `text` and the slot runs. -/
def editUTF16 (st : BinaryString) (text : QString) : BinaryString :=
  on_txtUTF16_textEdited (typeUTF16 st text) text

/-- The user sets the hex view to `text` and the slot runs. -/
def editHex (st : BinaryString) (text : QString) : BinaryString :=
  on_txtHex_textEdited (typeHex st text) text

/-- A state as the constructor could leave it: empty views with the given limits. -/
def fresh (a u h : Int) : BinaryString :=
  { ui := { txtAscii := { text := [], maxLength := a },
            txtUTF16 := { text := [], maxLength := u },
            txtHex := { text := [], maxLength := h },
            keepSize := { visible := true, checkState := CheckState.Unchecked } },
    mode_ := Mode.MemoryEditing,
    requestedMaxLength_ := 0,
    valueOriginalLength_ := 0 }

/-! ## Auxiliary definitions used by the statements and proofs -/

/-- The two hexadecimal digits of a byte. -/
def hex2 (b : Nat) : QString := [hexDigit (b / 16), hexDigit (b % 16)]

/-- The little-endian pairing of consecutive bytes; an unpaired last byte is dropped. -/
def pairLE : List Nat → List Nat
  | a :: b :: rest => (a + 256 * b) :: pairLE rest
  | _ => []

/-- Every token followed by one space: the text the loops build. -/
def endEach : List QString → QString
  | [] => []
  | t :: ts => t ++ [SPACE] ++ endEach ts

/-- The hex text built by the loops for the given bytes. -/
def renderHex (bs : List Nat) : QString := endEach (bs.map hex2)

/-- A token list is clean for `p` when no token is empty or holds a separator. -/
def Clean (p : Nat → Bool) (ts : List QString) : Prop :=
  ∀ t ∈ ts, t ≠ [] ∧ ∀ x ∈ t, p x = false

/-- The unit part of the two byte loops: `textUTF16` after reading the bytes. -/
def unitLoop : List Nat → QString → Nat → Nat → QString
  | [], u, _, _ => u
  | ch :: p, u, w, k =>
    unitLoop p (if k &&& 1 ≠ 0 then u ++ [utf16Step w ch] else u) (utf16Step w ch) (k + 1)

/-- The limits are those that `setEntriesMaxLength n` sets. -/
def CapsOf (st : BinaryString) (n : Int) : Prop :=
  st.ui.txtAscii.maxLength = n ∧ st.ui.txtUTF16.maxLength = Int.tdiv n 2 ∧
    st.ui.txtHex.maxLength = n * charHexLength

/-- In LengthLimited mode the limits are those of the requested maximum length. -/
def Inv (st : BinaryString) : Prop :=
  st.mode_ = Mode.LengthLimited → CapsOf st st.requestedMaxLength_

/-- The character cap that is active when `setValue b` sets the texts. -/
def activeCap (st : BinaryString) (b : QByteArray) : Int :=
  match st.mode_ with
  | Mode.LengthLimited => st.requestedMaxLength_
  | Mode.MemoryEditing =>
    if st.ui.keepSize.checkState = CheckState.Unchecked then 10922 else (b.length : Int)

/-- The state in which `setValue data` sets the texts: the length recorded and the
keep-size slot run. -/
def preload (st : BinaryString) (data : QByteArray) : BinaryString :=
  on_keepSize_stateChanged { st with valueOriginalLength_ := (data.length : Int) }
    st.ui.keepSize.checkState.toInt

/-- Reading of one token as a byte written in hexadecimal digits; `none` when the
token is empty, holds another character, or exceeds 255. -/
def parseHexByte (t : QString) : Option Nat :=
  match t with
  | [] => none
  | _ =>
    match parseHexDigits t 0 with
    | some v => if v < 256 then some v else none
    | none => none

/-- Reading of a list of tokens as bytes; `none` when a token is not a byte. -/
def decodeTokens : List QString → Option QByteArray
  | [] => some []
  | t :: ts =>
    match parseHexByte t, decodeTokens ts with
    | some v, some r => some (v :: r)
    | _, _ => none

/-- The decoder of the specification: the hex text is split into tokens at spaces and
every token is read as a hexadecimal byte. -/
def decodeHex (text : QString) : Option QByteArray :=
  decodeTokens (split text)

/-- The bytes of a unit text, low byte first: what `on_txtUTF16_textEdited` reads
from the code units. -/
def unitBytes : QString → List Nat
  | [] => []
  | i :: text => (i % 65536) % 256 :: ((i % 65536) / 256) % 256 :: unitBytes text

/-- The bytes the hex loops read from a hex text: one byte for every token. -/
def hexBytes (text : QString) : List Nat :=
  (split text).map (fun t => toUInt16 t % 256)

/-- The three views describe one byte sequence: the character view has the bytes of
`value` as its character codes and the unit view is their little-endian pairing. -/
def Consistent (st : BinaryString) : Prop :=
  st.ui.txtAscii.text = value st ∧ st.ui.txtUTF16.text = pairLE (value st)

/-- The sixteen lower-case hexadecimal digits. -/
def lowerHexDigits : List Nat := "0123456789abcdef".toList.map Char.toNat

/-- The two-digit lower-case hexadecimal form of a byte, as the specification words
it: the digit of the high half, then the digit of the low half. -/
def twoDigitHex (b : Nat) : QString :=
  [lowerHexDigits.getD (b / 16) 0, lowerHexDigits.getD (b % 16) 0]

/-- A character that `toUInt` accepts nowhere in a base-16 number: neither a
hexadecimal digit, nor a plus sign, nor `x` or `X`, nor white space. -/
def foreignChar (c : Nat) : Bool :=
  (hexDigitVal c).isNone && !isSpace c && c != 43 && c != 120 && c != 88

/-- The bytes of a unit text as the specification words it: for every unit its value
mod 256, then its value div 256. -/
def leBytes : List Nat → List Nat
  | [] => []
  | x :: xs => x % 256 :: x / 256 :: leBytes xs

/-- The user sets the keep-size box to `cs`; the box emits `stateChanged` and the slot
runs. -/
def toggleKeepSize (st : BinaryString) (cs : CheckState) : BinaryString :=
  on_keepSize_stateChanged
    { st with ui := { st.ui with keepSize := { st.ui.keepSize with checkState := cs } } }
    cs.toInt

/-- The states the editor can reach from a constructed one by its public functions
and by user input. -/
inductive Reachable : BinaryString → Prop where
  | init (a u h : Int) : Reachable (fresh a u h)
  | setMaxLength (st : BinaryString) (n : Int) : Reachable st → Reachable (setMaxLength st n)
  | setValue (st : BinaryString) (b : QByteArray) : Reachable st → Reachable (setValue st b)
  | setShowKeepSize (st : BinaryString) (v : Bool) :
      Reachable st → Reachable (setShowKeepSize st v)
  | toggle (st : BinaryString) (cs : CheckState) :
      Reachable st → Reachable (toggleKeepSize st cs)
  | editAscii (st : BinaryString) (text : QString) :
      Reachable st → Reachable (editAscii st text)
  | editUTF16 (st : BinaryString) (text : QString) :
      Reachable st → Reachable (editUTF16 st text)
  | editHex (st : BinaryString) (text : QString) :
      Reachable st → Reachable (editHex st text)

/-- The tokens of a hex text as the specification words them: the parts between
spaces, the empty ones left out. -/
def nonEmptyTokens (text : QString) : List QString :=
  (text.splitOn SPACE).filter (fun t => !t.isEmpty)

/-- In LengthLimited mode the limits are those `setEntriesMaxLength` stores for the
requested maximum length, the hex limit being the 32-bit product. -/
def CapsInv (st : BinaryString) : Prop :=
  st.mode_ = Mode.LengthLimited →
    st.ui.txtAscii.maxLength = st.requestedMaxLength_ ∧
    st.ui.txtUTF16.maxLength = Int.tdiv st.requestedMaxLength_ 2 ∧
    st.ui.txtHex.maxLength = wrapInt32 (st.requestedMaxLength_ * charHexLength)

/-- The integer `x` is a value of a 32-bit `int`. -/
def fitsInt32 (x : Int) : Prop :=
  -2147483648 ≤ x ∧ x ≤ 2147483647

/-! ## Lemmas -/

theorem and_ff (x : Nat) : x &&& 0xff = x % 256 :=
  Nat.and_pow_two_sub_one_eq_mod x 8

theorem utf16Step_eq (w ch : Nat) (hw : w < 65536) (hc : ch < 256) :
    utf16Step w ch = w / 256 + ch * 256 := by
  unfold utf16Step
  rw [Nat.shiftRight_eq_div_pow, Nat.shiftLeft_eq, Nat.lor_comm]
  have h1 : w / 2 ^ 8 < 2 ^ 8 := by omega
  have h2 := Nat.mul_add_lt_is_or h1 ch
  rw [Nat.mul_comm ch (2 ^ 8), ← h2]
  omega

set_option maxRecDepth 100000 in
theorem toUInt16_hex2 : ∀ b, b < 256 → toUInt16 (hex2 b) = b := by
  decide

theorem isSpace_hexDigit : ∀ d, d < 16 → isSpace (hexDigit d) = false := by
  decide

theorem splitSkip_token (p : Nat → Bool) (tok : QString) (hp : ∀ x ∈ tok, p x = false) :
    ∀ (c : Nat) (rest cur : QString), p c = true → (cur ++ tok) ≠ [] →
      splitSkip p (tok ++ c :: rest) cur = (cur ++ tok) :: splitSkip p rest [] := by
  induction tok with
  | nil =>
    intro c rest cur hc hne
    have : cur ≠ [] := by simpa using hne
    simp [splitSkip, hc, this]
  | cons x xs ih =>
    intro c rest cur hc hne
    have hx : p x = false := hp x (by simp)
    have := ih (fun y hy => hp y (by simp [hy])) c rest (cur ++ [x]) hc (by simp)
    simp [splitSkip, hx, this]

theorem splitSkip_last (p : Nat → Bool) (tok : QString) (hp : ∀ x ∈ tok, p x = false) :
    ∀ (cur : QString), (cur ++ tok) ≠ [] → splitSkip p tok cur = [cur ++ tok] := by
  induction tok with
  | nil =>
    intro cur hne
    have : cur ≠ [] := by simpa using hne
    simp [splitSkip, this]
  | cons x xs ih =>
    intro cur hne
    have hx : p x = false := hp x (by simp)
    have := ih (fun y hy => hp y (by simp [hy])) (cur ++ [x]) (by simp)
    simp [splitSkip, hx, this]

theorem intercalate_cons2 (sep t t2 : QString) (ts : List QString) :
    List.intercalate sep (t :: t2 :: ts) = t ++ sep ++ List.intercalate sep (t2 :: ts) := by
  simp [List.intercalate, List.intersperse]

theorem intercalate_one (sep t : QString) : List.intercalate sep [t] = t := by
  simp [List.intercalate, List.intersperse]

theorem splitSkip_endEach (p : Nat → Bool) (hsp : p SPACE = true) :
    ∀ ts : List QString, Clean p ts → splitSkip p (endEach ts) [] = ts := by
  intro ts
  induction ts with
  | nil => intro _; simp [endEach, splitSkip]
  | cons t ts ih =>
    intro h
    have ht := h t (by simp)
    have := splitSkip_token p t ht.2 SPACE (endEach ts) [] hsp (by simpa using ht.1)
    simp only [endEach, List.append_assoc, List.singleton_append, this, List.nil_append]
    rw [ih (fun y hy => h y (by simp [hy]))]

theorem splitSkip_intercalate (p : Nat → Bool) (hsp : p SPACE = true) :
    ∀ ts : List QString, Clean p ts → splitSkip p (List.intercalate [SPACE] ts) [] = ts := by
  intro ts
  induction ts with
  | nil => intro _; simp [List.intercalate, splitSkip]
  | cons t ts ih =>
    intro h
    have ht := h t (by simp)
    cases ts with
    | nil =>
      rw [intercalate_one]
      simpa using splitSkip_last p t ht.2 [] (by simpa using ht.1)
    | cons t2 ts =>
      rw [intercalate_cons2]
      have := splitSkip_token p t ht.2 SPACE (List.intercalate [SPACE] (t2 :: ts)) [] hsp
        (by simpa using ht.1)
      simp only [List.append_assoc, List.singleton_append, this, List.nil_append]
      rw [ih (fun y hy => h y (by simp [hy]))]

theorem hexDigit_ne_space : ∀ d, d < 16 → (hexDigit d == SPACE) = false := by
  decide

theorem clean_hex2_isSpace (bs : List Nat) (hb : ∀ x ∈ bs, x < 256) :
    Clean isSpace (bs.map hex2) := by
  intro t ht
  obtain ⟨b, hb1, rfl⟩ := List.mem_map.1 ht
  have := hb b hb1
  refine ⟨by simp [hex2], ?_⟩
  intro x hx
  simp only [hex2, List.mem_cons, List.mem_singleton, List.not_mem_nil, or_false] at hx
  rcases hx with rfl | rfl
  · exact isSpace_hexDigit _ (by omega)
  · exact isSpace_hexDigit _ (by omega)

theorem clean_hex2_space (bs : List Nat) (hb : ∀ x ∈ bs, x < 256) :
    Clean (fun c => c == SPACE) (bs.map hex2) := by
  intro t ht
  obtain ⟨b, hb1, rfl⟩ := List.mem_map.1 ht
  have := hb b hb1
  refine ⟨by simp [hex2], ?_⟩
  intro x hx
  simp only [hex2, List.mem_cons, List.mem_singleton, List.not_mem_nil, or_false] at hx
  rcases hx with rfl | rfl
  · exact hexDigit_ne_space _ (by omega)
  · exact hexDigit_ne_space _ (by omega)

theorem simplified_renderHex (bs : List Nat) (hb : ∀ x ∈ bs, x < 256) :
    simplified (renderHex bs) = List.intercalate [SPACE] (bs.map hex2) := by
  unfold simplified renderHex
  rw [splitSkip_endEach isSpace (by decide) _ (clean_hex2_isSpace bs hb)]

theorem split_intercalate_hex2 (bs : List Nat) (hb : ∀ x ∈ bs, x < 256) :
    split (List.intercalate [SPACE] (bs.map hex2)) = bs.map hex2 := by
  unfold split
  exact splitSkip_intercalate _ (by decide) _ (clean_hex2_space bs hb)

theorem valueLoop_eq (l : List QString) :
    ∀ ret, valueLoop l ret = ret ++ l.map (fun t => toUInt16 t % 256) := by
  induction l with
  | nil => intro ret; simp [valueLoop]
  | cons t l ih => intro ret; simp [valueLoop, ih]

theorem map_toUInt16_hex2 (bs : List Nat) (hb : ∀ x ∈ bs, x < 256) :
    (bs.map hex2).map (fun t => toUInt16 t % 256) = bs := by
  induction bs with
  | nil => rfl
  | cons b bs ih =>
    have h1 := hb b (by simp)
    simp only [List.map_cons, toUInt16_hex2 b h1, Nat.mod_eq_of_lt h1]
    rw [ih (fun y hy => hb y (by simp [hy]))]

theorem sprintf_02x_byte (b : Nat) : sprintf_02x ((b % 256) &&& 0xff) = hex2 (b % 256) := by
  have h : b % 256 < 256 := Nat.mod_lt _ (by decide)
  rw [and_ff, Nat.mod_mod]
  simp [sprintf_02x, h, hex2]

theorem asciiLoop_eq (p : QByteArray) :
    ∀ h u w k, asciiLoop p h u w k =
      (h ++ renderHex (p.map (fun b => b % 256)), unitLoop (p.map (fun b => b % 256)) u w k) := by
  induction p with
  | nil => intro h u w k; simp [asciiLoop, renderHex, endEach, unitLoop]
  | cons b p ih =>
    intro h u w k
    simp only [asciiLoop, ih, sprintf_02x_byte, List.map_cons, renderHex, endEach, unitLoop,
      List.append_assoc]

theorem hexLoop_eq (l : List QString) :
    ∀ a u w k, hexLoop l a u w k =
      (a ++ l.map (fun t => toUInt16 t % 256), unitLoop (l.map (fun t => toUInt16 t % 256)) u w k) := by
  induction l with
  | nil => intro a u w k; simp [hexLoop, unitLoop]
  | cons t l ih =>
    intro a u w k
    simp only [hexLoop, ih, List.map_cons, unitLoop, List.append_assoc, List.singleton_append]

theorem utf16Step_lt (w ch : Nat) : utf16Step w ch < 65536 := by
  unfold utf16Step
  exact Nat.mod_lt _ (by decide)

theorem unitLoop_even (n : Nat) :
    ∀ (bs : List Nat), bs.length ≤ n → (∀ x ∈ bs, x < 256) →
    ∀ u w k, w < 65536 → k % 2 = 0 → unitLoop bs u w k = u ++ pairLE bs := by
  induction n using Nat.strong_induction_on with
  | _ n ih =>
    intro bs hlen hb u w k hw hk
    match bs, hlen, hb with
    | [], _, _ => simp [unitLoop, pairLE]
    | [a], _, _ =>
      have h0 : k &&& 1 = 0 := by rw [Nat.and_one_is_mod]; omega
      simp [unitLoop, pairLE, h0]
    | a :: b :: rest, hlen, hb =>
      have ha : a < 256 := hb a (by simp)
      have hb2 : b < 256 := hb b (by simp)
      have h0 : k &&& 1 = 0 := by rw [Nat.and_one_is_mod]; omega
      have h1 : (k + 1) &&& 1 = 1 := by rw [Nat.and_one_is_mod]; omega
      have e1 : utf16Step w a = w / 256 + a * 256 := utf16Step_eq w a hw ha
      have e2 : utf16Step (utf16Step w a) b = a + 256 * b := by
        rw [utf16Step_eq _ b (utf16Step_lt w a) hb2, e1]; omega
      simp only [List.length_cons] at hlen
      have := ih (n - 2) (by omega) rest (by omega) (fun y hy => hb y (by simp [hy]))
        (u ++ [a + 256 * b]) (a + 256 * b) (k + 1 + 1) (by omega) (by omega)
      simp [unitLoop, h0, h1, e2, this, pairLE]

theorem unitLoop_pairLE (bs : List Nat) (hb : ∀ x ∈ bs, x < 256) :
    unitLoop bs [] 0 0 = pairLE bs := by
  simpa using unitLoop_even bs.length bs (le_refl _) hb [] 0 0 (by decide) (by decide)

theorem toLatin1_lt (text : QString) : ∀ x ∈ toLatin1 text, x < 256 := by
  intro x hx
  obtain ⟨c, _, rfl⟩ := List.mem_map.1 hx
  by_cases h : c > 0xff
  · simp [h]
  · simp only [h, if_false]; omega

theorem map_mod_of_lt (bs : List Nat) (hb : ∀ x ∈ bs, x < 256) :
    bs.map (fun b => b % 256) = bs := by
  induction bs with
  | nil => rfl
  | cons b bs ih =>
    simp only [List.map_cons, Nat.mod_eq_of_lt (hb b (by simp))]
    rw [ih (fun y hy => hb y (by simp [hy]))]

theorem toLatin1_of_lt (bs : List Nat) (hb : ∀ x ∈ bs, x < 256) : toLatin1 bs = bs := by
  induction bs with
  | nil => rfl
  | cons b bs ih =>
    have h : ¬ b > 0xff := by have := hb b (by simp); omega
    have := ih (fun y hy => hb y (by simp [hy]))
    simp only [toLatin1] at this
    simp only [toLatin1, List.map_cons, h, if_false, this]

theorem fromLatin1_of_lt (bs : List Nat) (hb : ∀ x ∈ bs, x < 256) : fromLatin1 bs = bs :=
  map_mod_of_lt bs hb

theorem on_txtAscii_textEdited_txtHex (st : BinaryString) (text : QString) :
    (on_txtAscii_textEdited st text).ui.txtHex =
      st.ui.txtHex.setText (List.intercalate [SPACE] ((toLatin1 text).map hex2)) := by
  simp only [on_txtAscii_textEdited, asciiLoop_eq, map_mod_of_lt _ (toLatin1_lt text),
    List.nil_append, simplified_renderHex _ (toLatin1_lt text)]

theorem on_txtAscii_textEdited_txtUTF16 (st : BinaryString) (text : QString) :
    (on_txtAscii_textEdited st text).ui.txtUTF16 =
      st.ui.txtUTF16.setText (pairLE (toLatin1 text)) := by
  simp only [on_txtAscii_textEdited, asciiLoop_eq, map_mod_of_lt _ (toLatin1_lt text),
    unitLoop_pairLE _ (toLatin1_lt text)]

theorem on_txtAscii_textEdited_txtAscii (st : BinaryString) (text : QString) :
    (on_txtAscii_textEdited st text).ui.txtAscii = st.ui.txtAscii := rfl

theorem left_of_le (s : QString) (n : Int) (h : (s.length : Int) ≤ n) : left s n = s := by
  unfold left
  split
  · rfl
  · exact List.take_of_length_le (by omega)

theorem setText_text_of_le (w : QLineEdit) (t : QString) (h : (t.length : Int) ≤ w.maxLength) :
    (w.setText t).text = t := by
  simp only [QLineEdit.setText, left_of_le t _ h, ite_self]

theorem setText_maxLength (w : QLineEdit) (t : QString) :
    (w.setText t).maxLength = w.maxLength := rfl

theorem length_intercalate_hex2 (bs : List Nat) :
    (List.intercalate [SPACE] (bs.map hex2)).length = 3 * bs.length - 1 := by
  induction bs with
  | nil => rfl
  | cons b bs ih =>
    cases bs with
    | nil => simp [intercalate_one, hex2]
    | cons b2 bs =>
      simp only [List.map_cons, intercalate_cons2, List.length_append, List.length_cons] at ih ⊢
      simp only [hex2, List.length_cons, List.length_nil] at ih ⊢
      omega

theorem length_pairLE (n : Nat) : ∀ bs : List Nat, bs.length ≤ n →
    (pairLE bs).length = bs.length / 2 := by
  induction n using Nat.strong_induction_on with
  | _ n ih =>
    intro bs hlen
    match bs, hlen with
    | [], _ => simp [pairLE]
    | [a], _ => simp [pairLE]
    | a :: b :: rest, hlen =>
      simp only [List.length_cons] at hlen
      have := ih (n - 2) (by omega) rest (by omega)
      simp only [pairLE, List.length_cons, this]
      omega

theorem wrapInt32_of_fits (x : Int) (h1 : -2147483648 ≤ x) (h2 : x ≤ 2147483647) :
    wrapInt32 x = x := by
  unfold wrapInt32
  omega

theorem capsOf_setEntriesMaxLength (st : BinaryString) (n : Int)
    (h1 : -2147483648 ≤ n * charHexLength) (h2 : n * charHexLength ≤ 2147483647) :
    CapsOf (setEntriesMaxLength st n) n := by
  simp [CapsOf, setEntriesMaxLength, QLineEdit.setMaxLength, QLineEdit.setText,
    wrapInt32_of_fits _ h1 h2]

theorem capsOf_preload (st : BinaryString) (b : QByteArray) (hinv : Inv st)
    (hfit : st.mode_ = Mode.MemoryEditing → 3 * activeCap st b ≤ 2147483647) :
    CapsOf (preload st b) (activeCap st b) := by
  cases hm : st.mode_ with
  | LengthLimited =>
    have := hinv hm
    unfold preload on_keepSize_stateChanged activeCap
    simpa [CapsOf, hm] using this
  | MemoryEditing =>
    have hf := hfit hm
    unfold activeCap at hf
    unfold preload on_keepSize_stateChanged activeCap
    by_cases hc : st.ui.keepSize.checkState = CheckState.Unchecked
    · simp only [hm, hc, if_true, ne_eq, not_true_eq_false, if_false]
      exact capsOf_setEntriesMaxLength _ _ (by decide) (by decide)
    · simp only [hm, hc, if_false] at hf
      simp only [hm, hc, if_false, ne_eq, not_true_eq_false]
      exact capsOf_setEntriesMaxLength _ _ (by simp only [charHexLength]; omega)
        (by simp only [charHexLength]; omega)

theorem setValue_txtHex (st : BinaryString) (b : QByteArray) :
    (setValue st b).ui.txtHex =
      (preload st b).ui.txtHex.setText
        (List.intercalate [SPACE] ((toLatin1 (fromLatin1 b)).map hex2)) := by
  unfold setValue
  simp only [on_txtAscii_textEdited_txtHex]
  rfl

theorem setValue_txtUTF16 (st : BinaryString) (b : QByteArray) :
    (setValue st b).ui.txtUTF16 =
      (preload st b).ui.txtUTF16.setText (pairLE (toLatin1 (fromLatin1 b))) := by
  unfold setValue
  simp only [on_txtAscii_textEdited_txtUTF16]
  rfl

theorem setValue_txtAscii (st : BinaryString) (b : QByteArray) :
    (setValue st b).ui.txtAscii = (preload st b).ui.txtAscii.setText (fromLatin1 b) := rfl

theorem value_of_hex (st : BinaryString) (bs : List Nat) (hb : ∀ x ∈ bs, x < 256)
    (h : st.ui.txtHex.text = List.intercalate [SPACE] (bs.map hex2)) : value st = bs := by
  unfold value
  rw [h, split_intercalate_hex2 bs hb, valueLoop_eq, List.nil_append, map_toUInt16_hex2 bs hb]

theorem take_intercalate_hex2 (n : Nat) :
    ∀ bs : List Nat, n < bs.length →
      (List.intercalate [SPACE] (bs.map hex2)).take (3 * n) = renderHex (bs.take n) := by
  induction n with
  | zero => intro bs _; simp [renderHex, endEach]
  | succ n ih =>
    intro bs hlen
    match bs, hlen with
    | [b], hlen => simp at hlen
    | b :: b2 :: rest, hlen =>
      have h := ih (b2 :: rest) (by simpa using hlen)
      have e : 3 * (n + 1) = 3 * n + 3 := by ring
      simp only [renderHex] at h
      simp only [List.map_cons, intercalate_cons2, List.take_succ_cons, renderHex, endEach, e]
      simp only [List.map_cons] at h
      rw [← h]
      simp [hex2, SPACE]

theorem split_renderHex (bs : List Nat) (hb : ∀ x ∈ bs, x < 256) :
    split (renderHex bs) = bs.map hex2 := by
  unfold split renderHex
  exact splitSkip_endEach _ (by decide) _ (clean_hex2_space bs hb)

theorem left_nil (c : Int) : left [] c = [] := by
  unfold left
  split <;> simp

theorem split_setText_hex (w : QLineEdit) (bs : List Nat) (c : Int)
    (hw : w.maxLength = c * charHexLength) (hb : ∀ x ∈ bs, x < 256) :
    split (w.setText (List.intercalate [SPACE] (bs.map hex2))).text = (left bs c).map hex2 := by
  simp only [QLineEdit.setText, hw, charHexLength]
  by_cases hc : c < 0
  · have h1 : left (List.intercalate [SPACE] (bs.map hex2)) (c * 3) =
        List.intercalate [SPACE] (bs.map hex2) := by
      unfold left; rw [if_pos (by omega)]
    have h2 : left bs c = bs := by unfold left; rw [if_pos hc]
    rw [h1, h2, ite_self, split_intercalate_hex2 bs hb]
  · by_cases hl : (bs.length : Int) ≤ c
    · have h1 : left (List.intercalate [SPACE] (bs.map hex2)) (c * 3) =
          List.intercalate [SPACE] (bs.map hex2) := by
        apply left_of_le
        rw [length_intercalate_hex2]; omega
      have h2 : left bs c = bs := left_of_le bs c hl
      rw [h1, h2, ite_self, split_intercalate_hex2 bs hb]
    · have hn : c.toNat < bs.length := by omega
      have h2 : left bs c = bs.take c.toNat := by unfold left; rw [if_neg hc]
      have h1 : left (List.intercalate [SPACE] (bs.map hex2)) (c * 3) =
          renderHex (bs.take c.toNat) := by
        unfold left
        rw [if_neg (by omega), ← take_intercalate_hex2 c.toNat bs hn]
        congr 1
        omega
      have hne : (List.intercalate [SPACE] (bs.map hex2)).isEmpty = false := by
        cases bs with
        | nil => simp at hn
        | cons b bs =>
          cases bs with
          | nil => simp [intercalate_one, hex2]
          | cons b2 bs => simp [intercalate_cons2, hex2]
      rw [h1, h2, hne]
      simp only [Bool.false_eq_true, if_false]
      exact split_renderHex _ (fun x hx => hb x (List.mem_of_mem_take hx))

theorem valueLoop_map_hex2 (bs : List Nat) (hb : ∀ x ∈ bs, x < 256) :
    valueLoop (bs.map hex2) [] = bs := by
  rw [valueLoop_eq, List.nil_append, map_toUInt16_hex2 bs hb]

theorem left_lt (bs : List Nat) (c : Int) (hb : ∀ x ∈ bs, x < 256) :
    ∀ x ∈ left bs c, x < 256 := by
  intro x hx
  unfold left at hx
  split at hx
  · exact hb x hx
  · exact hb x (List.mem_of_mem_take hx)

theorem value_setValue (st : BinaryString) (b : QByteArray)
    (hb : ∀ x ∈ b, x < 256) (hinv : Inv st)
    (hfit : st.mode_ = Mode.MemoryEditing → 3 * activeCap st b ≤ 2147483647) :
    value (setValue st b) = left b (activeCap st b) := by
  unfold value
  rw [setValue_txtHex, fromLatin1_of_lt b hb, toLatin1_of_lt b hb,
    split_setText_hex _ b _ (capsOf_preload st b hinv hfit).2.2 hb,
    valueLoop_map_hex2 _ (left_lt b _ hb)]

set_option maxRecDepth 100000 in
theorem parseHexByte_hex2 : ∀ b, b < 256 → parseHexByte (hex2 b) = some b := by
  decide

theorem decodeTokens_hex2 (bs : List Nat) (hb : ∀ x ∈ bs, x < 256) :
    decodeTokens (bs.map hex2) = some bs := by
  induction bs with
  | nil => rfl
  | cons b bs ih =>
    simp only [List.map_cons, decodeTokens, parseHexByte_hex2 b (hb b (by simp)),
      ih (fun y hy => hb y (by simp [hy]))]

theorem decodeHex_setValue (st : BinaryString) (b : QByteArray)
    (hb : ∀ x ∈ b, x < 256) (hinv : Inv st)
    (hfit : st.mode_ = Mode.MemoryEditing → 3 * activeCap st b ≤ 2147483647) :
    decodeHex (setValue st b).ui.txtHex.text = some (left b (activeCap st b)) := by
  unfold decodeHex
  rw [setValue_txtHex, fromLatin1_of_lt b hb, toLatin1_of_lt b hb,
    split_setText_hex _ b _ (capsOf_preload st b hinv hfit).2.2 hb,
    decodeTokens_hex2 _ (left_lt b _ hb)]

theorem take_pairLE (n : Nat) :
    ∀ (bs : List Nat) (c : Nat), bs.length ≤ n →
      (pairLE bs).take (c / 2) = pairLE (bs.take c) := by
  induction n using Nat.strong_induction_on with
  | _ n ih =>
    intro bs c hlen
    match bs, hlen with
    | [], _ => simp [pairLE]
    | [a], _ =>
      cases c with
      | zero => simp [pairLE]
      | succ c => simp [pairLE]
    | a :: b :: rest, hlen =>
      simp only [List.length_cons] at hlen
      match c with
      | 0 => simp [pairLE]
      | 1 => simp [pairLE]
      | c + 2 =>
        have := ih (n - 2) (by omega) rest c (by omega)
        have e : (c + 2) / 2 = c / 2 + 1 := by omega
        simp only [pairLE, e, List.take_succ_cons, this]

theorem setText_text_left (w : QLineEdit) (t : QString) :
    (w.setText t).text = left t w.maxLength := by
  unfold QLineEdit.setText
  cases t with
  | nil => simp [left_nil]
  | cons x xs => simp

theorem left_pairLE (bs : List Nat) (c : Int) (hc : 0 ≤ c) :
    left (pairLE bs) (Int.tdiv c 2) = pairLE (left bs c) := by
  have h2 : Int.tdiv c 2 = c / 2 := Int.tdiv_eq_ediv hc (by decide)
  unfold left
  rw [if_neg (by omega), if_neg (by omega)]
  have e : (Int.tdiv c 2).toNat = c.toNat / 2 := by omega
  rw [e]
  exact take_pairLE bs.length bs c.toNat (le_refl _)

theorem value_eq_hexBytes (st : BinaryString) : value st = hexBytes st.ui.txtHex.text := by
  unfold value hexBytes
  rw [valueLoop_eq, List.nil_append]

theorem hexBytes_lt (text : QString) : ∀ x ∈ hexBytes text, x < 256 := by
  intro x hx
  obtain ⟨t, _, rfl⟩ := List.mem_map.1 hx
  exact Nat.mod_lt _ (by decide)

theorem on_txtHex_textEdited_txtAscii (st : BinaryString) (text : QString) :
    (on_txtHex_textEdited st text).ui.txtAscii = st.ui.txtAscii.setText (hexBytes text) := by
  simp only [on_txtHex_textEdited, hexLoop_eq, List.nil_append, hexBytes]

theorem on_txtHex_textEdited_txtUTF16 (st : BinaryString) (text : QString) :
    (on_txtHex_textEdited st text).ui.txtUTF16 =
      st.ui.txtUTF16.setText (pairLE (hexBytes text)) := by
  have h := unitLoop_pairLE _ (hexBytes_lt text)
  simp only [hexBytes] at h
  simp only [on_txtHex_textEdited, hexLoop_eq, hexBytes, h]

theorem on_txtHex_textEdited_txtHex (st : BinaryString) (text : QString) :
    (on_txtHex_textEdited st text).ui.txtHex = st.ui.txtHex := rfl

theorem shift8 (ch : Nat) : ch >>> 8 = ch / 256 := by
  rw [Nat.shiftRight_eq_div_pow]

theorem sprintf_02x_lt (v : Nat) (h : v < 256) : sprintf_02x v = hex2 v := by
  simp [sprintf_02x, h, hex2]

theorem utf16Loop_eq (text : QString) :
    ∀ a h, utf16Loop text a h = (a ++ unitBytes text, h ++ renderHex (unitBytes text)) := by
  induction text with
  | nil => intro a h; simp [utf16Loop, unitBytes, renderHex, endEach]
  | cons i text ih =>
    intro a h
    have h1 : (i % 65536) % 256 < 256 := Nat.mod_lt _ (by decide)
    have h2 : ((i % 65536) / 256) % 256 < 256 := Nat.mod_lt _ (by decide)
    simp only [utf16Loop, ih, and_ff, shift8, sprintf_02x_lt _ h1, sprintf_02x_lt _ h2,
      unitBytes, renderHex, endEach, List.map_cons, List.append_assoc, List.singleton_append,
      List.cons_append, List.nil_append]

theorem unitBytes_lt (text : QString) : ∀ x ∈ unitBytes text, x < 256 := by
  induction text with
  | nil => intro x hx; simp [unitBytes] at hx
  | cons i text ih =>
    intro x hx
    simp only [unitBytes, List.mem_cons] at hx
    rcases hx with rfl | rfl | hx
    · exact Nat.mod_lt _ (by decide)
    · exact Nat.mod_lt _ (by decide)
    · exact ih x hx

theorem pairLE_unitBytes (text : QString) (ht : ∀ x ∈ text, x < 65536) :
    pairLE (unitBytes text) = text := by
  induction text with
  | nil => simp [unitBytes, pairLE]
  | cons i text ih =>
    have hi := ht i (by simp)
    have := ih (fun y hy => ht y (by simp [hy]))
    simp only [unitBytes, pairLE, this, List.cons.injEq, and_true]
    omega

theorem length_unitBytes (text : QString) : (unitBytes text).length = 2 * text.length := by
  induction text with
  | nil => rfl
  | cons i text ih => simp only [unitBytes, List.length_cons, ih]; omega

theorem on_txtUTF16_textEdited_txtHex (st : BinaryString) (text : QString) :
    (on_txtUTF16_textEdited st text).ui.txtHex =
      st.ui.txtHex.setText (List.intercalate [SPACE] ((unitBytes text).map hex2)) := by
  simp only [on_txtUTF16_textEdited, utf16Loop_eq, List.nil_append,
    simplified_renderHex _ (unitBytes_lt text)]

theorem on_txtUTF16_textEdited_txtAscii (st : BinaryString) (text : QString) :
    (on_txtUTF16_textEdited st text).ui.txtAscii = st.ui.txtAscii.setText (unitBytes text) := by
  simp only [on_txtUTF16_textEdited, utf16Loop_eq, List.nil_append]

theorem on_txtUTF16_textEdited_txtUTF16 (st : BinaryString) (text : QString) :
    (on_txtUTF16_textEdited st text).ui.txtUTF16 = st.ui.txtUTF16 := rfl

theorem tdiv2_nonpos (c : Int) (h : c < 0) : Int.tdiv c 2 ≤ 0 := by
  cases c with
  | ofNat n => exact absurd h (by simp)
  | negSucc n =>
    have : Int.tdiv (Int.negSucc n) 2 = -(((n + 1) / 2 : Nat) : Int) := rfl
    rw [this]
    omega

theorem toLatin1_of_le (text : QString) (h : ∀ x ∈ text, x ≤ 0xff) : toLatin1 text = text :=
  toLatin1_of_lt text (fun x hx => by have := h x hx; omega)

theorem length_toLatin1 (text : QString) : (toLatin1 text).length = text.length := by
  simp [toLatin1]

theorem value_on_txtAscii (st : BinaryString) (c : Int) (text : QString)
    (hcaps : CapsOf st c) :
    value (on_txtAscii_textEdited st text) = left (toLatin1 text) c := by
  unfold value
  rw [on_txtAscii_textEdited_txtHex, split_setText_hex _ _ c hcaps.2.2 (toLatin1_lt text),
    valueLoop_map_hex2 _ (left_lt _ _ (toLatin1_lt text))]

theorem value_on_txtUTF16 (st : BinaryString) (c : Int) (text : QString)
    (hcaps : CapsOf st c) :
    value (on_txtUTF16_textEdited st text) = left (unitBytes text) c := by
  unfold value
  rw [on_txtUTF16_textEdited_txtHex, split_setText_hex _ _ c hcaps.2.2 (unitBytes_lt text),
    valueLoop_map_hex2 _ (left_lt _ _ (unitBytes_lt text))]

theorem consistent_setValue (st : BinaryString) (b : QByteArray)
    (hb : ∀ x ∈ b, x < 256) (hinv : Inv st)
    (hpos : st.mode_ = Mode.LengthLimited → 0 ≤ st.requestedMaxLength_)
    (hfit : st.mode_ = Mode.MemoryEditing → 3 * activeCap st b ≤ 2147483647) :
    Consistent (setValue st b) := by
  have hcaps := capsOf_preload st b hinv hfit
  have hc : 0 ≤ activeCap st b := by
    unfold activeCap
    cases hm : st.mode_ with
    | LengthLimited => simpa using hpos hm
    | MemoryEditing =>
      simp only
      split
      · decide
      · omega
  refine ⟨?_, ?_⟩
  · rw [value_setValue st b hb hinv hfit, setValue_txtAscii, setText_text_left, hcaps.1,
      fromLatin1_of_lt b hb]
  · rw [value_setValue st b hb hinv hfit, setValue_txtUTF16, setText_text_left, hcaps.2.1,
      fromLatin1_of_lt b hb, toLatin1_of_lt b hb, left_pairLE b _ hc]

theorem capsOf_typeAscii (st : BinaryString) (c : Int) (text : QString) (h : CapsOf st c) :
    CapsOf (typeAscii st text) c := h

theorem capsOf_typeUTF16 (st : BinaryString) (c : Int) (text : QString) (h : CapsOf st c) :
    CapsOf (typeUTF16 st text) c := h

theorem capsOf_typeHex (st : BinaryString) (c : Int) (text : QString) (h : CapsOf st c) :
    CapsOf (typeHex st text) c := h

theorem consistent_editAscii (st : BinaryString) (c : Int) (text : QString)
    (hcaps : CapsOf st c) (hlen : (text.length : Int) ≤ c) (ht : ∀ x ∈ text, x ≤ 0xff) :
    Consistent (editAscii st text) := by
  unfold editAscii
  have hc := capsOf_typeAscii st c text hcaps
  refine ⟨?_, ?_⟩
  · rw [value_on_txtAscii _ c text hc, toLatin1_of_le text ht, left_of_le text c hlen]
    rfl
  · rw [value_on_txtAscii _ c text hc, on_txtAscii_textEdited_txtUTF16,
      setText_text_left, toLatin1_of_le text ht, hc.2.1, left_pairLE text c (by omega)]

theorem consistent_editUTF16 (st : BinaryString) (c : Int) (text : QString)
    (hcaps : CapsOf st c) (hlen : (text.length : Int) ≤ Int.tdiv c 2)
    (ht : ∀ x ∈ text, x < 65536) :
    Consistent (editUTF16 st text) := by
  unfold editUTF16
  have hc := capsOf_typeUTF16 st c text hcaps
  have hfit : (unitBytes text).length = 0 ∨ ((unitBytes text).length : Int) ≤ c := by
    rw [length_unitBytes]
    by_cases hneg : c < 0
    · have := tdiv2_nonpos c hneg
      left; omega
    · have h2 : Int.tdiv c 2 = c / 2 := Int.tdiv_eq_ediv (by omega) (by decide)
      right; omega
  have hleft : left (unitBytes text) c = unitBytes text := by
    rcases hfit with h0 | h1
    · rw [List.length_eq_zero.1 h0, left_nil]
    · exact left_of_le _ _ h1
  refine ⟨?_, ?_⟩
  · rw [value_on_txtUTF16 _ c text hc, on_txtUTF16_textEdited_txtAscii, setText_text_left,
      hleft, hc.1, hleft]
  · rw [value_on_txtUTF16 _ c text hc, hleft, pairLE_unitBytes text ht]
    rfl

theorem consistent_editHex (st : BinaryString) (c : Int) (text : QString)
    (hcaps : CapsOf st c) (hlen : ((split text).length : Int) ≤ c) :
    Consistent (editHex st text) := by
  unfold editHex
  have hc := capsOf_typeHex st c text hcaps
  have hl : ((hexBytes text).length : Int) ≤ c := by simpa [hexBytes] using hlen
  have hv : value (on_txtHex_textEdited (typeHex st text) text) = hexBytes text := by
    rw [value_eq_hexBytes]
    rfl
  refine ⟨?_, ?_⟩
  · rw [hv, on_txtHex_textEdited_txtAscii, setText_text_left, hc.1, left_of_le _ _ hl]
  · rw [hv, on_txtHex_textEdited_txtUTF16, setText_text_left, hc.2.1,
      left_pairLE _ c (by omega), left_of_le _ _ hl]

set_option maxRecDepth 100000 in
theorem hex2_eq_twoDigitHex : ∀ b, b < 256 → hex2 b = twoDigitHex b := by
  decide

theorem map_hex2_eq (bs : List Nat) (hb : ∀ x ∈ bs, x < 256) :
    bs.map hex2 = bs.map twoDigitHex :=
  List.map_congr_left (fun x hx => hex2_eq_twoDigitHex x (hb x hx))

theorem getElem?_pairLE (k : Nat) :
    ∀ bs : List Nat, k < bs.length / 2 →
      (pairLE bs)[k]? = some (bs.getD (2 * k) 0 + 256 * bs.getD (2 * k + 1) 0) := by
  induction k with
  | zero =>
    intro bs h
    match bs, h with
    | [], h => exact absurd h (by simp)
    | [a], h => exact absurd h (by simp)
    | a :: b :: rest, _ => simp [pairLE]
  | succ k ih =>
    intro bs h
    match bs, h with
    | [], h => exact absurd h (by simp)
    | [a], h => exact absurd h (by simp)
    | a :: b :: rest, h =>
      have h2 : k < rest.length / 2 := by
        simp only [List.length_cons] at h
        omega
      have e : 2 * (k + 1) = 2 * k + 1 + 1 := by ring
      simp only [pairLE, List.getElem?_cons_succ, ih rest h2, e, List.getD_cons_succ]

theorem setValue_txtHex_text (st : BinaryString) (b : QByteArray)
    (hb : ∀ x ∈ b, x < 256) (hinv : Inv st) (hlen : (b.length : Int) ≤ activeCap st b)
    (hfit : st.mode_ = Mode.MemoryEditing → 3 * activeCap st b ≤ 2147483647) :
    (setValue st b).ui.txtHex.text = List.intercalate [SPACE] (b.map hex2) := by
  rw [setValue_txtHex, fromLatin1_of_lt b hb, toLatin1_of_lt b hb]
  apply setText_text_of_le
  rw [length_intercalate_hex2, (capsOf_preload st b hinv hfit).2.2]
  simp only [charHexLength]
  omega

theorem setValue_txtUTF16_text (st : BinaryString) (b : QByteArray)
    (hb : ∀ x ∈ b, x < 256) (hinv : Inv st) (hlen : (b.length : Int) ≤ activeCap st b)
    (hfit : st.mode_ = Mode.MemoryEditing → 3 * activeCap st b ≤ 2147483647) :
    (setValue st b).ui.txtUTF16.text = pairLE b := by
  rw [setValue_txtUTF16, fromLatin1_of_lt b hb, toLatin1_of_lt b hb, setText_text_left,
    (capsOf_preload st b hinv hfit).2.1, left_pairLE b _ (by omega), left_of_le b _ hlen]

theorem hexDigitVal_lt (x : Nat) (h : hexDigitVal x ≠ none) : x < 128 := by
  unfold hexDigitVal at h
  split at h
  · omega
  · split at h
    · omega
    · split at h
      · omega
      · exact absurd rfl h

theorem hexDigitVal_facts_small : ∀ x, x < 128 → hexDigitVal x ≠ none →
    isSpace x = false ∧ x ≠ 43 ∧ x ≠ 120 ∧ x ≠ 88 := by
  decide

theorem hexDigitVal_facts (x : Nat) (h : hexDigitVal x ≠ none) :
    isSpace x = false ∧ x ≠ 43 ∧ x ≠ 120 ∧ x ≠ 88 :=
  hexDigitVal_facts_small x (hexDigitVal_lt x h) h

theorem parseHexDigits_digits (t : QString) :
    ∀ acc v, parseHexDigits t acc = some v → ∀ x ∈ t, hexDigitVal x ≠ none := by
  induction t with
  | nil => intro acc v _ x hx; simp at hx
  | cons c cs ih =>
    intro acc v h x hx
    unfold parseHexDigits at h
    cases hc : hexDigitVal c with
    | none => rw [hc] at h; simp at h
    | some d =>
      rw [hc] at h
      simp only at h
      rcases List.mem_cons.1 hx with rfl | hx2
      · rw [hc]; simp
      · exact ih _ v h x hx2

theorem parseHexDigits_none (t : QString) :
    ∀ acc x, x ∈ t → hexDigitVal x = none → parseHexDigits t acc = none := by
  induction t with
  | nil => intro acc x hx; simp at hx
  | cons c cs ih =>
    intro acc x hx hn
    unfold parseHexDigits
    cases hc : hexDigitVal c with
    | none => rfl
    | some d =>
      simp only
      rcases List.mem_cons.1 hx with rfl | hx2
      · rw [hn] at hc; cases hc
      · exact ih _ x hx2 hn

theorem dropWhile_of_all_false (p : Nat → Bool) (l : List Nat) (h : ∀ x ∈ l, p x = false) :
    l.dropWhile p = l := by
  cases l with
  | nil => rfl
  | cons x xs => simp [List.dropWhile, h x (by simp)]

theorem trimmed_of_no_space (t : QString) (h : ∀ x ∈ t, isSpace x = false) :
    trimmed t = t := by
  unfold trimmed
  rw [dropWhile_of_all_false isSpace t h,
    dropWhile_of_all_false isSpace t.reverse (fun x hx => h x (List.mem_reverse.1 hx)),
    List.reverse_reverse]

theorem dropPlus_of_digits (t : QString) (h : ∀ x ∈ t, hexDigitVal x ≠ none) :
    dropPlus t = t := by
  unfold dropPlus
  split
  · rename_i r
    exact absurd rfl (hexDigitVal_facts 43 (h 43 (by simp))).2.1
  · rfl

theorem dropHexMark_of_digits (t : QString) (h : ∀ x ∈ t, hexDigitVal x ≠ none) :
    dropHexMark t = t := by
  unfold dropHexMark
  split
  · exact absurd rfl (hexDigitVal_facts 120 (h 120 (by simp))).2.2.1
  · exact absurd rfl (hexDigitVal_facts 88 (h 88 (by simp))).2.2.2
  · rfl

theorem toUInt16_of_digits (t : QString) (v : Nat) (hne : t ≠ [])
    (hv : parseHexDigits t 0 = some v) :
    toUInt16 t = if v < 2 ^ 32 then v else 0 := by
  have hall := parseHexDigits_digits t 0 v hv
  unfold toUInt16
  rw [trimmed_of_no_space t (fun x hx => (hexDigitVal_facts x (hall x hx)).1),
    dropPlus_of_digits t hall, dropHexMark_of_digits t hall]
  cases t with
  | nil => exact absurd rfl hne
  | cons c cs => simp only [hv]

theorem mem_dropWhile_of_false (p : Nat → Bool) (x : Nat) (hx : p x = false) :
    ∀ l : List Nat, x ∈ l → x ∈ l.dropWhile p := by
  intro l
  induction l with
  | nil => intro h; exact h
  | cons y ys ih =>
    intro h
    by_cases hy : p y = true
    · rw [List.dropWhile_cons_of_pos hy]
      rcases List.mem_cons.1 h with rfl | h2
      · rw [hx] at hy; cases hy
      · exact ih h2
    · rw [List.dropWhile_cons_of_neg hy]
      exact h

theorem mem_trimmed (t : QString) (x : Nat) (hx : isSpace x = false) (h : x ∈ t) :
    x ∈ trimmed t := by
  unfold trimmed
  rw [List.mem_reverse]
  apply mem_dropWhile_of_false isSpace x hx
  rw [List.mem_reverse]
  exact mem_dropWhile_of_false isSpace x hx t h

theorem mem_dropPlus (t : QString) (x : Nat) (hx : x ≠ 43) (h : x ∈ t) : x ∈ dropPlus t := by
  unfold dropPlus
  split
  · rcases List.mem_cons.1 h with rfl | h2
    · exact absurd rfl hx
    · exact h2
  · exact h

theorem mem_dropHexMark (t : QString) (x : Nat) (h48 : x ≠ 48) (h120 : x ≠ 120) (h88 : x ≠ 88)
    (h : x ∈ t) : x ∈ dropHexMark t := by
  unfold dropHexMark
  split
  · simp only [List.mem_cons] at h
    rcases h with rfl | rfl | h2
    · exact absurd rfl h48
    · exact absurd rfl h120
    · exact h2
  · simp only [List.mem_cons] at h
    rcases h with rfl | rfl | h2
    · exact absurd rfl h48
    · exact absurd rfl h88
    · exact h2
  · exact h

theorem toUInt16_of_foreign (t : QString) (x : Nat) (hx : x ∈ t) (hf : foreignChar x = true) :
    toUInt16 t = 0 := by
  simp only [foreignChar, Bool.and_eq_true, Option.isNone_iff_eq_none, Bool.not_eq_true',
    bne_iff_ne, ne_eq] at hf
  obtain ⟨⟨⟨⟨hnone, hsp⟩, h43⟩, h120⟩, h88⟩ := hf
  have h48 : x ≠ 48 := by
    intro h; rw [h] at hnone; revert hnone; decide
  have hmem : x ∈ dropHexMark (dropPlus (trimmed t)) :=
    mem_dropHexMark _ x h48 h120 h88 (mem_dropPlus _ x h43 (mem_trimmed t x hsp hx))
  unfold toUInt16
  split
  · rfl
  · rename_i t2 _
    rw [parseHexDigits_none _ 0 x hmem hnone]

theorem splitSkip_ne_nil (p : Nat → Bool) (s : QString) :
    ∀ cur, ∀ t ∈ splitSkip p s cur, t ≠ [] := by
  induction s with
  | nil =>
    intro cur t ht
    unfold splitSkip at ht
    cases cur with
    | nil => simp at ht
    | cons c cs =>
      simp only [List.isEmpty_cons, Bool.false_eq_true, if_false, List.mem_singleton] at ht
      rw [ht]; simp
  | cons c cs ih =>
    intro cur t ht
    unfold splitSkip at ht
    by_cases hp : p c = true
    · rw [if_pos hp] at ht
      cases cur with
      | nil =>
        simp only [List.isEmpty_nil, if_true] at ht
        exact ih [] t ht
      | cons d ds =>
        simp only [List.isEmpty_cons, Bool.false_eq_true, if_false, List.mem_cons] at ht
        rcases ht with rfl | h2
        · simp
        · exact ih [] t h2
    · rw [if_neg hp] at ht
      exact ih _ t ht

theorem split_ne_nil (text : QString) : ∀ t ∈ split text, t ≠ [] :=
  splitSkip_ne_nil _ text []

theorem getElem?_left (l : List Nat) (c : Int) (i : Nat) (h : c < 0 ∨ (i : Int) < c) :
    (left l c)[i]? = l[i]? := by
  unfold left
  split
  · rfl
  · rename_i hc
    have : i < c.toNat := by omega
    rw [List.getElem?_take, if_pos this]

theorem getElem?_hexBytes (text : QString) (i : Nat) (t : QString)
    (h : (split text)[i]? = some t) : (hexBytes text)[i]? = some (toUInt16 t % 256) := by
  unfold hexBytes
  rw [List.getElem?_map, h]
  rfl

theorem getElem?_value (st : BinaryString) (i : Nat) (t : QString)
    (h : (split st.ui.txtHex.text)[i]? = some t) :
    (value st)[i]? = some (toUInt16 t % 256) := by
  rw [value_eq_hexBytes]
  exact getElem?_hexBytes _ i t h

theorem getElem?_on_txtHex_txtAscii (st : BinaryString) (text : QString) (i : Nat)
    (t : QString) (h : (split text)[i]? = some t)
    (hcap : st.ui.txtAscii.maxLength < 0 ∨ (i : Int) < st.ui.txtAscii.maxLength) :
    (on_txtHex_textEdited st text).ui.txtAscii.text[i]? = some (toUInt16 t % 256) := by
  rw [on_txtHex_textEdited_txtAscii, setText_text_left, getElem?_left _ _ i hcap]
  exact getElem?_hexBytes _ i t h

theorem mem_of_getElem?_eq (l : List QString) (i : Nat) (t : QString) (h : l[i]? = some t) :
    t ∈ l := by
  obtain ⟨hi, rfl⟩ := List.getElem?_eq_some.1 h
  exact List.getElem_mem hi

theorem getElem?_toLatin1 (text : QString) (i ch : Nat) (h : text[i]? = some ch)
    (hch : ch ≤ 0xff) : (toLatin1 text)[i]? = some ch := by
  unfold toLatin1
  rw [List.getElem?_map, h]
  have : ¬ ch > 0xff := by omega
  simp [this]

theorem unitBytes_eq_leBytes (u : QString) (hu : ∀ x ∈ u, x < 65536) :
    unitBytes u = leBytes u := by
  induction u with
  | nil => rfl
  | cons x xs ih =>
    have hx := hu x (by simp)
    have := ih (fun y hy => hu y (by simp [hy]))
    simp only [unitBytes, leBytes, this, List.cons.injEq, and_true]
    constructor <;> omega

theorem setMaxLength_pos (st : BinaryString) (n : Int) (hn : n ≠ 0) :
    setMaxLength st n = setEntriesMaxLength
      { st with
        requestedMaxLength_ := n,
        mode_ := Mode.LengthLimited,
        ui := { st.ui with keepSize := { st.ui.keepSize with visible := false } } } n := by
  unfold setMaxLength
  rw [if_pos hn]

theorem setEntriesMaxLength_mode (st : BinaryString) (n : Int) :
    (setEntriesMaxLength st n).mode_ = st.mode_ := rfl

theorem setEntriesMaxLength_keepSize (st : BinaryString) (n : Int) :
    (setEntriesMaxLength st n).ui.keepSize = st.ui.keepSize := rfl

theorem capsInv_of_frame (st st2 : BinaryString) (hm : st2.mode_ = st.mode_)
    (hr : st2.requestedMaxLength_ = st.requestedMaxLength_)
    (ha : st2.ui.txtAscii.maxLength = st.ui.txtAscii.maxLength)
    (hu : st2.ui.txtUTF16.maxLength = st.ui.txtUTF16.maxLength)
    (hh : st2.ui.txtHex.maxLength = st.ui.txtHex.maxLength)
    (hinv : CapsInv st) : CapsInv st2 := by
  intro h
  have := hinv (by rw [← hm]; exact h)
  rw [ha, hu, hh, hr]
  exact this

theorem capsInv_setMaxLength (st : BinaryString) (n : Int) : CapsInv (setMaxLength st n) := by
  by_cases hn : n ≠ 0
  · rw [setMaxLength_pos st n hn]
    intro _
    simp [setEntriesMaxLength, QLineEdit.setMaxLength, QLineEdit.setText]
  · have h0 : n = 0 := by omega
    subst h0
    intro h
    have hm : (setMaxLength st 0).mode_ = Mode.MemoryEditing := rfl
    rw [hm] at h
    cases h

theorem capsInv_on_keepSize_stateChanged (st : BinaryString) (s : Int) (hinv : CapsInv st) :
    CapsInv (on_keepSize_stateChanged st s) := by
  unfold on_keepSize_stateChanged
  cases hm : st.mode_ with
  | LengthLimited => simpa using hinv
  | MemoryEditing =>
    simp only [ne_eq, not_true_eq_false, if_false]
    split
    · intro h
      rw [setEntriesMaxLength_mode, hm] at h
      cases h
    · intro h
      rw [setEntriesMaxLength_mode, hm] at h
      cases h

theorem capsInv_setValue (st : BinaryString) (b : QByteArray) (hinv : CapsInv st) :
    CapsInv (setValue st b) := by
  have h1 : CapsInv (preload st b) :=
    capsInv_on_keepSize_stateChanged _ _ (capsInv_of_frame st _ rfl rfl rfl rfl rfl hinv)
  exact capsInv_of_frame (preload st b) _ rfl rfl rfl rfl rfl h1

theorem reachable_capsInv (st : BinaryString) (h : Reachable st) : CapsInv st := by
  induction h with
  | init a u h => intro hm; cases hm
  | setMaxLength st n _ _ => exact capsInv_setMaxLength st n
  | setValue st b _ ih => exact capsInv_setValue st b ih
  | setShowKeepSize st v _ ih => exact capsInv_of_frame st _ rfl rfl rfl rfl rfl ih
  | toggle st cs _ ih =>
    exact capsInv_on_keepSize_stateChanged _ _ (capsInv_of_frame st _ rfl rfl rfl rfl rfl ih)
  | editAscii st text _ ih =>
    exact capsInv_of_frame (typeAscii st text) _ rfl rfl rfl rfl rfl
      (capsInv_of_frame st _ rfl rfl rfl rfl rfl ih)
  | editUTF16 st text _ ih =>
    exact capsInv_of_frame (typeUTF16 st text) _ rfl rfl rfl rfl rfl
      (capsInv_of_frame st _ rfl rfl rfl rfl rfl ih)
  | editHex st text _ ih =>
    exact capsInv_of_frame (typeHex st text) _ rfl rfl rfl rfl rfl
      (capsInv_of_frame st _ rfl rfl rfl rfl rfl ih)

theorem inv_of_capsInv (st : BinaryString) (h : CapsInv st)
    (hfit : st.mode_ = Mode.LengthLimited →
      fitsInt32 (st.requestedMaxLength_ * charHexLength)) : Inv st := by
  intro hm
  have h1 := h hm
  have h2 := hfit hm
  exact ⟨h1.1, h1.2.1, by rw [h1.2.2, wrapInt32_of_fits _ h2.1 h2.2]⟩

theorem reachable_inv (st : BinaryString) (h : Reachable st)
    (hfit : st.mode_ = Mode.LengthLimited →
      fitsInt32 (st.requestedMaxLength_ * charHexLength)) : Inv st :=
  inv_of_capsInv st (reachable_capsInv st h) hfit

theorem reachable_inv_of_activeCap (st : BinaryString) (b : QByteArray) (h : Reachable st)
    (hfit : fitsInt32 (3 * activeCap st b)) : Inv st := by
  apply reachable_inv st h
  intro hm
  unfold fitsInt32 at hfit ⊢
  simp only [activeCap, hm] at hfit
  simp only [charHexLength]
  omega

theorem setValue_mode (st : BinaryString) (b : QByteArray) :
    (setValue st b).mode_ = (preload st b).mode_ := rfl

theorem setValue_valueOriginalLength (st : BinaryString) (b : QByteArray) :
    (setValue st b).valueOriginalLength_ = (preload st b).valueOriginalLength_ := rfl

theorem on_keepSize_stateChanged_mode (st : BinaryString) (s : Int) :
    (on_keepSize_stateChanged st s).mode_ = st.mode_ := by
  unfold on_keepSize_stateChanged
  split
  · rfl
  · split <;> rfl

theorem on_keepSize_stateChanged_valueOriginalLength (st : BinaryString) (s : Int) :
    (on_keepSize_stateChanged st s).valueOriginalLength_ = st.valueOriginalLength_ := by
  unfold on_keepSize_stateChanged
  split
  · rfl
  · split <;> rfl

theorem on_keepSize_stateChanged_of_limited (st : BinaryString) (s : Int)
    (hm : st.mode_ = Mode.LengthLimited) : on_keepSize_stateChanged st s = st := by
  unfold on_keepSize_stateChanged
  rw [if_pos (by rw [hm]; decide)]

theorem capsOf_toggle_unchecked (st : BinaryString) (hm : st.mode_ = Mode.MemoryEditing) :
    CapsOf (toggleKeepSize st CheckState.Unchecked) UNLIMITED_MAX_LENGTH := by
  unfold toggleKeepSize on_keepSize_stateChanged
  simp only [hm, ne_eq, not_true_eq_false, if_false, if_true]
  exact capsOf_setEntriesMaxLength _ _ (by decide) (by decide)

theorem capsOf_toggle_checked (st : BinaryString) (cs : CheckState)
    (hm : st.mode_ = Mode.MemoryEditing) (hcs : cs ≠ CheckState.Unchecked)
    (h1 : -2147483648 ≤ st.valueOriginalLength_ * charHexLength)
    (h2 : st.valueOriginalLength_ * charHexLength ≤ 2147483647) :
    CapsOf (toggleKeepSize st cs) st.valueOriginalLength_ := by
  unfold toggleKeepSize on_keepSize_stateChanged
  simp only [hm, ne_eq, not_true_eq_false, if_false, hcs]
  exact capsOf_setEntriesMaxLength _ _ h1 h2

theorem toggleKeepSize_mode (st : BinaryString) (cs : CheckState) :
    (toggleKeepSize st cs).mode_ = st.mode_ :=
  on_keepSize_stateChanged_mode _ _

theorem toggleKeepSize_valueOriginalLength (st : BinaryString) (cs : CheckState) :
    (toggleKeepSize st cs).valueOriginalLength_ = st.valueOriginalLength_ :=
  on_keepSize_stateChanged_valueOriginalLength _ _

theorem setValue_after_unbounded (st : BinaryString) (b : QByteArray) :
    (setValue (setMaxLength st 0) b).mode_ = Mode.MemoryEditing ∧
    (setValue (setMaxLength st 0) b).valueOriginalLength_ = (b.length : Int) := by
  refine ⟨?_, ?_⟩
  · rw [setValue_mode]
    unfold preload
    rw [on_keepSize_stateChanged_mode]
    rfl
  · rw [setValue_valueOriginalLength]
    unfold preload
    rw [on_keepSize_stateChanged_valueOriginalLength]

theorem endEach_eq_intercalate (t : QString) (ts : List QString) :
    endEach (t :: ts) = List.intercalate [SPACE] (t :: ts) ++ [SPACE] := by
  induction ts generalizing t with
  | nil => simp [endEach, intercalate_one]
  | cons t2 ts ih =>
    rw [intercalate_cons2, endEach, ih t2]
    simp

theorem setValue_txtHex_text_cut (st : BinaryString) (b : QByteArray) (n : Nat)
    (hb : ∀ x ∈ b, x < 256) (hinv : Inv st)
    (hfit : st.mode_ = Mode.MemoryEditing → 3 * activeCap st b ≤ 2147483647)
    (hcap : activeCap st b = (n : Int))
    (hlen : n < b.length) :
    (setValue st b).ui.txtHex.text = renderHex (b.take n) := by
  rw [setValue_txtHex, fromLatin1_of_lt b hb, toLatin1_of_lt b hb, setText_text_left,
    (capsOf_preload st b hinv hfit).2.2, hcap]
  unfold left
  rw [if_neg (by simp only [charHexLength]; omega), ← take_intercalate_hex2 n b hlen]
  congr 1
  simp only [charHexLength]
  omega

theorem splitSkip_length_bound (p : Nat → Bool) (s : QString) :
    ∀ cur, ((splitSkip p s cur).map List.length).sum + (splitSkip p s cur).length
      ≤ s.length + cur.length + 1 := by
  induction s with
  | nil =>
    intro cur
    unfold splitSkip
    cases cur with
    | nil => simp
    | cons c cs => simp
  | cons c cs ih =>
    intro cur
    unfold splitSkip
    by_cases hp : p c = true
    · rw [if_pos hp]
      cases cur with
      | nil =>
        have := ih []
        simp only [List.isEmpty_nil, if_true, List.length_cons, List.length_nil] at this ⊢
        omega
      | cons d ds =>
        have := ih []
        simp only [List.isEmpty_cons, Bool.false_eq_true, if_false, List.map_cons,
          List.sum_cons, List.length_cons, List.length_nil] at this ⊢
        omega
    · rw [if_neg hp]
      have := ih (cur ++ [c])
      simp only [List.length_append, List.length_cons, List.length_nil] at this ⊢
      omega

theorem sum_length_ge (ts : List QString) (h : ∀ t ∈ ts, 2 ≤ t.length) :
    2 * ts.length ≤ (ts.map List.length).sum := by
  induction ts with
  | nil => simp
  | cons t ts ih =>
    have h1 := h t (by simp)
    have h2 := ih (fun y hy => h y (by simp [hy]))
    simp only [List.length_cons, List.map_cons, List.sum_cons]
    omega

theorem splitSkip_eq_filter_go (p : Nat → Bool) (s : QString) :
    ∀ cur, splitSkip p s cur =
      (List.splitOnP.go p s cur.reverse).filter (fun t => !t.isEmpty) := by
  induction s with
  | nil =>
    intro cur
    unfold splitSkip List.splitOnP.go
    cases cur with
    | nil => simp
    | cons c cs => simp
  | cons c cs ih =>
    intro cur
    unfold splitSkip List.splitOnP.go
    by_cases hp : p c = true
    · rw [if_pos hp, if_pos hp, ih []]
      cases cur with
      | nil => simp
      | cons d ds => simp
    · rw [if_neg hp, if_neg hp, ih (cur ++ [c])]
      simp

theorem split_eq_nonEmptyTokens (text : QString) : split text = nonEmptyTokens text := by
  unfold split nonEmptyTokens List.splitOn List.splitOnP
  rw [splitSkip_eq_filter_go]
  rfl

theorem left_natCast (l : List Nat) (n : Nat) : left l (n : Int) = l.take n := by
  unfold left
  rw [if_neg (by omega), Int.toNat_ofNat]

theorem length_value (st : BinaryString) :
    (value st).length = (split st.ui.txtHex.text).length := by
  rw [value_eq_hexBytes]
  simp [hexBytes]

theorem caps_setEntriesMaxLength (st : BinaryString) (n : Int) :
    (setEntriesMaxLength st n).ui.txtAscii.maxLength = n ∧
    (setEntriesMaxLength st n).ui.txtUTF16.maxLength = Int.tdiv n 2 ∧
    (setEntriesMaxLength st n).ui.txtHex.maxLength = wrapInt32 (n * charHexLength) := by
  simp [setEntriesMaxLength, QLineEdit.setMaxLength, QLineEdit.setText]

theorem caps_toggle_checked (st : BinaryString) (cs : CheckState)
    (hm : st.mode_ = Mode.MemoryEditing) (hcs : cs ≠ CheckState.Unchecked) :
    (toggleKeepSize st cs).ui.txtAscii.maxLength = st.valueOriginalLength_ ∧
    (toggleKeepSize st cs).ui.txtUTF16.maxLength = Int.tdiv st.valueOriginalLength_ 2 ∧
    (toggleKeepSize st cs).ui.txtHex.maxLength =
      wrapInt32 (st.valueOriginalLength_ * charHexLength) := by
  unfold toggleKeepSize on_keepSize_stateChanged
  simp only [hm, ne_eq, not_true_eq_false, if_false, hcs]
  exact caps_setEntriesMaxLength _ _

theorem sum_length_ge_length (ts : List QString) (h : ∀ t ∈ ts, t ≠ []) :
    ts.length ≤ (ts.map List.length).sum := by
  induction ts with
  | nil => simp
  | cons t ts ih =>
    have h1 : 0 < t.length := List.length_pos.2 (h t (by simp))
    have h2 := ih (fun y hy => h y (by simp [hy]))
    simp only [List.length_cons, List.map_cons, List.sum_cons]
    omega

theorem split_length_le (text : QString) : 2 * (split text).length ≤ text.length + 1 := by
  have h1 := splitSkip_length_bound (fun c => c == SPACE) text []
  have h2 := sum_length_ge_length (split text) (split_ne_nil text)
  unfold split at h2 ⊢
  simp only [List.length_nil] at h1
  omega

theorem length_setText_le (w : QLineEdit) (t : QString) (n : Nat)
    (hw : w.maxLength = (n : Int)) : (w.setText t).text.length ≤ n := by
  rw [setText_text_left, hw, left_natCast, List.length_take]
  omega

theorem default_ascii_tokens (text : QString) :
    2 * (split (on_txtAscii_textEdited (fresh 32767 32767 32767) text).ui.txtHex.text).length
      ≤ 32768 := by
  have h1 := split_length_le (on_txtAscii_textEdited (fresh 32767 32767 32767) text).ui.txtHex.text
  have h2 : (on_txtAscii_textEdited (fresh 32767 32767 32767) text).ui.txtHex.text.length
      ≤ 32767 := by
    rw [on_txtAscii_textEdited_txtHex]
    exact length_setText_le _ _ 32767 rfl
  omega

theorem default_utf16_chars (u : QString) :
    (on_txtUTF16_textEdited (fresh 32767 32767 32767) u).ui.txtAscii.text.length ≤ 32767 := by
  rw [on_txtUTF16_textEdited_txtAscii]
  exact length_setText_le _ _ 32767 rfl

theorem default_ascii_counts :
    ((List.replicate 20000 0x41).length : Int) ≤
      (fresh 32767 32767 32767).ui.txtAscii.maxLength ∧
    (split (on_txtAscii_textEdited (fresh 32767 32767 32767)
      (List.replicate 20000 0x41)).ui.txtHex.text).length
      < (List.replicate 20000 0x41).length := by
  have h := default_ascii_tokens (List.replicate 20000 0x41)
  rw [List.length_replicate]
  refine ⟨by decide, by omega⟩

theorem default_ascii_token_missing :
    ((List.replicate 20000 0x41).length : Int) ≤
      (fresh 32767 32767 32767).ui.txtAscii.maxLength ∧
    (List.replicate 20000 0x41)[19000]? = some 0x41 ∧
    (split (on_txtAscii_textEdited (fresh 32767 32767 32767)
      (List.replicate 20000 0x41)).ui.txtHex.text)[19000]? = none := by
  have h := default_ascii_tokens (List.replicate 20000 0x41)
  refine ⟨by rw [List.length_replicate]; decide, ?_, ?_⟩
  · rw [List.getElem?_replicate]
    simp
  · rw [List.getElem?_eq_none_iff]
    omega

theorem default_utf16_counts :
    ((List.replicate 20000 0x4142).length : Int) ≤
      (fresh 32767 32767 32767).ui.txtUTF16.maxLength ∧
    (on_txtUTF16_textEdited (fresh 32767 32767 32767)
      (List.replicate 20000 0x4142)).ui.txtAscii.text.length
      < 2 * (List.replicate 20000 0x4142).length := by
  have h := default_utf16_chars (List.replicate 20000 0x4142)
  rw [List.length_replicate]
  refine ⟨by decide, by omega⟩

/-! ## The claims -/

/-- C1, the claim as stated fails: after `setMaxLength 1431655766` the hex cap is the
32-bit product 3 * 1431655766, which is 2, so that the three bytes 1, 2, 3, well
within the character cap, come back from `value` as the one byte 1. -/
theorem roundtrip_counterexample :
    (setMaxLength (fresh 32767 32767 32767) 1431655766).ui.txtAscii.maxLength = 1431655766 ∧
    (setMaxLength (fresh 32767 32767 32767) 1431655766).ui.txtHex.maxLength = 2 ∧
    (([1, 2, 3] : QByteArray).length : Int) ≤
      activeCap (setMaxLength (fresh 32767 32767 32767) 1431655766) [1, 2, 3] ∧
    value (setValue (setMaxLength (fresh 32767 32767 32767) 1431655766) [1, 2, 3]) = [1] ∧
    value (setValue (setMaxLength (fresh 32767 32767 32767) 1431655766) [1, 2, 3])
      ≠ [1, 2, 3] := by
  decide

/-- C1, amended. Round trip within the cap: for every byte sequence `b` whose length
does not exceed the active character cap (the requested maximum length in LengthLimited
mode, 10922 in MemoryEditing mode with keep-size unchecked, the length of `b` itself
with keep-size checked), provided three times that cap is a value of a 32-bit `int`,
`value` called right after `setValue b` returns exactly `b`. -/
theorem setValue_value_roundtrip (st : BinaryString) (b : QByteArray)
    (hb : ∀ x ∈ b, x < 256) (hinv : Inv st)
    (hlen : (b.length : Int) ≤ activeCap st b)
    (hfit : fitsInt32 (3 * activeCap st b)) :
    value (setValue st b) = b := by
  rw [value_setValue st b hb hinv (fun _ => hfit.2)]
  exact left_of_le b _ hlen

/-- A use of the amended C1: three bytes loaded into an editor limited to four
characters. -/
theorem setValue_value_roundtrip_witness :
    Inv (setMaxLength (fresh 32767 32767 32767) 4) ∧
    value (setValue (setMaxLength (fresh 32767 32767 32767) 4) [0x41, 0x00, 0xff]) =
      [0x41, 0x00, 0xff] :=
  ⟨fun _ => ⟨rfl, rfl, rfl⟩,
   setValue_value_roundtrip (setMaxLength (fresh 32767 32767 32767) 4) [0x41, 0x00, 0xff]
    (by decide) (fun _ => ⟨rfl, rfl, rfl⟩) (by decide) ⟨by decide, by decide⟩⟩

/-- C2, the claim as stated fails: in an editor limited to one character the hex view
after `setValue [1, 2]` decodes to `[1]`, and `value` returns `[1]` as well. Nor is the
decoded text always `b` cut to the character cap: after `setMaxLength 1431655766` the
hex cap is the 32-bit product 2, and `setValue [1, 2, 3]` leaves a hex view that
decodes to `[1]`. -/
theorem decodeHex_setValue_counterexample :
    decodeHex (setValue (setMaxLength (fresh 32767 32767 32767) 1) [1, 2]).ui.txtHex.text
      = some [1] ∧
    decodeHex (setValue (setMaxLength (fresh 32767 32767 32767) 1) [1, 2]).ui.txtHex.text
      ≠ some [1, 2] ∧
    value (setValue (setMaxLength (fresh 32767 32767 32767) 1) [1, 2]) = [1] ∧
    decodeHex (setValue (setMaxLength (fresh 32767 32767 32767) 1431655766)
      [1, 2, 3]).ui.txtHex.text = some [1] ∧
    left [1, 2, 3] (activeCap (setMaxLength (fresh 32767 32767 32767) 1431655766) [1, 2, 3])
      = [1, 2, 3] := by
  decide

/-- C2, amended. For every byte sequence `b` and every editor state in which three times
the active character cap is a value of a 32-bit `int`, decoding the hex view held after
`setValue b` gives `b` cut to the active character cap; it gives `b` exactly when the
length of `b` does not exceed that cap. -/
theorem decodeHex_setValue_within_cap (st : BinaryString) (b : QByteArray)
    (hb : ∀ x ∈ b, x < 256) (hinv : Inv st)
    (hfit : fitsInt32 (3 * activeCap st b)) :
    decodeHex (setValue st b).ui.txtHex.text = some (left b (activeCap st b)) ∧
    ((b.length : Int) ≤ activeCap st b →
      decodeHex (setValue st b).ui.txtHex.text = some b) := by
  refine ⟨decodeHex_setValue st b hb hinv (fun _ => hfit.2), fun hlen => ?_⟩
  rw [decodeHex_setValue st b hb hinv (fun _ => hfit.2), left_of_le b _ hlen]

/-- A use of the amended C2: two bytes in MemoryEditing mode with keep-size checked. -/
theorem decodeHex_setValue_within_cap_witness :
    decodeHex (setValue { fresh 10 5 30 with
        ui := { (fresh 10 5 30).ui with
          keepSize := { visible := true, checkState := CheckState.Checked } } }
      [0x10, 0xfe]).ui.txtHex.text = some [0x10, 0xfe] :=
  (decodeHex_setValue_within_cap _ [0x10, 0xfe] (by decide) (by intro h; cases h)
    ⟨by decide, by decide⟩).2 (by decide)

/-- C3, the claim as stated fails. A character above 0xff typed into the character
view stays there while `value` holds a question mark; a hex text of two one-digit
tokens under a character cap of one leaves one character for two bytes; under the
maximum length -1 the unit cap is 0, so that `setValue` empties the unit view; and
under the maximum length 1431655766 the hex cap is the 32-bit product 2, so that
`setValue` leaves three characters and a hex view of one byte. -/
theorem consistent_counterexample :
    ¬ Consistent (editAscii (setMaxLength (fresh 32767 32767 32767) 4) [0x141]) ∧
    ¬ Consistent (editHex (setMaxLength (fresh 32767 32767 32767) 1) [49, 32, 50]) ∧
    ¬ Consistent (setValue (setMaxLength (fresh 32767 32767 32767) (-1)) [1, 2]) ∧
    ¬ Consistent (setValue (setMaxLength (fresh 32767 32767 32767) 1431655766)
      [1, 2, 3]) := by
  unfold Consistent
  decide

/-- C3, amended. The three views describe the same byte sequence (the character view
has the bytes of `value` as character codes, the unit view is their little-endian
pairing) after `setValue` of any bytes in a state whose LengthLimited caps are those
of a non-negative maximum length and in which three times the active character cap
is a value of a 32-bit `int`, and, in a state whose caps are character `c`, unit `c / 2`,
hex `3 * c`, after an edit of the character view by a text of at most `c` characters
with codes up to 0xff, after an edit of the unit view by a text of at most `c / 2`
code units, and after an edit of the hex view by a text of at most `c` tokens. -/
theorem consistent_after_operations :
    (∀ (st : BinaryString) (b : QByteArray), (∀ x ∈ b, x < 256) → Inv st →
      (st.mode_ = Mode.LengthLimited → 0 ≤ st.requestedMaxLength_) →
      fitsInt32 (3 * activeCap st b) →
      Consistent (setValue st b)) ∧
    (∀ (st : BinaryString) (c : Int) (text : QString), CapsOf st c →
      (text.length : Int) ≤ c → (∀ x ∈ text, x ≤ 0xff) →
      Consistent (editAscii st text)) ∧
    (∀ (st : BinaryString) (c : Int) (text : QString), CapsOf st c →
      (text.length : Int) ≤ Int.tdiv c 2 → (∀ x ∈ text, x < 65536) →
      Consistent (editUTF16 st text)) ∧
    (∀ (st : BinaryString) (c : Int) (text : QString), CapsOf st c →
      ((split text).length : Int) ≤ c →
      Consistent (editHex st text)) :=
  ⟨fun st b hb hinv hpos hfit => consistent_setValue st b hb hinv hpos (fun _ => hfit.2),
   consistent_editAscii, consistent_editUTF16, consistent_editHex⟩

/-- A use of the amended C3, one operation of each kind in an editor limited to four
characters. -/
theorem consistent_after_operations_witness :
    Consistent (setValue (setMaxLength (fresh 32767 32767 32767) 4) [1, 2, 3, 4, 5]) ∧
    Consistent (editAscii (setMaxLength (fresh 32767 32767 32767) 4) [0x41, 0xff, 0]) ∧
    Consistent (editUTF16 (setMaxLength (fresh 32767 32767 32767) 4) [0x4142, 0xd800]) ∧
    Consistent (editHex (setMaxLength (fresh 32767 32767 32767) 4) [52, 49, 32, 122]) :=
  ⟨consistent_after_operations.1 _ _ (by decide) (fun _ => ⟨rfl, rfl, rfl⟩)
      (fun _ => by decide) ⟨by decide, by decide⟩,
   consistent_after_operations.2.1 _ 4 _ ⟨rfl, rfl, rfl⟩ (by decide) (by decide),
   consistent_after_operations.2.2.1 _ 4 _ ⟨rfl, rfl, rfl⟩ (by decide) (by decide),
   consistent_after_operations.2.2.2 _ 4 _ ⟨rfl, rfl, rfl⟩ (by decide)⟩

/-- C4, the claim as stated fails: in an editor whose three line edits have the same
limit, as a constructed widget has before any limit is set, the hex rendering of a text
within the character cap is cut to the hex cap. With the limit 30, a character-view
text of 30 characters leaves a hex view of 10 tokens; with the limit 32767 of a new
line edit, a text of 20000 characters leaves fewer than 20000 tokens. -/
theorem ascii_counts_counterexample :
    ((List.replicate 30 0x41).length : Int) ≤ (fresh 30 30 30).ui.txtAscii.maxLength ∧
    (split (on_txtAscii_textEdited (fresh 30 30 30)
      (List.replicate 30 0x41)).ui.txtHex.text).length = 10 ∧
    (split (on_txtAscii_textEdited (fresh 30 30 30)
      (List.replicate 30 0x41)).ui.txtHex.text).length ≠ (List.replicate 30 0x41).length ∧
    ((List.replicate 20000 0x41).length : Int) ≤
      (fresh 32767 32767 32767).ui.txtAscii.maxLength ∧
    (split (on_txtAscii_textEdited (fresh 32767 32767 32767)
      (List.replicate 20000 0x41)).ui.txtHex.text).length
      < (List.replicate 20000 0x41).length :=
  ⟨by decide, by decide, by decide, default_ascii_counts.1, default_ascii_counts.2⟩

/-- C4, amended. In an editor whose caps are character `c`, unit `c / 2`, hex `3 * c`,
as `setEntriesMaxLength c` sets them, for every character-view text of `n` characters,
`n` within the character cap `c`, the character-view edit handler leaves a hex view of
exactly `n` space-separated tokens and a unit view of exactly `n / 2` code units. -/
theorem on_txtAscii_textEdited_counts (st : BinaryString) (c : Int) (text : QString)
    (hcaps : CapsOf st c) (hlen : (text.length : Int) ≤ c) :
    (split (on_txtAscii_textEdited st text).ui.txtHex.text).length = text.length ∧
    (on_txtAscii_textEdited st text).ui.txtUTF16.text.length = text.length / 2 := by
  have hl : ((toLatin1 text).length : Int) ≤ c := by rw [length_toLatin1]; exact hlen
  refine ⟨?_, ?_⟩
  · rw [on_txtAscii_textEdited_txtHex, split_setText_hex _ _ c hcaps.2.2 (toLatin1_lt text),
      left_of_le _ _ hl, List.length_map, length_toLatin1]
  · rw [on_txtAscii_textEdited_txtUTF16, setText_text_left, hcaps.2.1,
      left_pairLE _ c (by omega), left_of_le _ _ hl, length_pairLE _ _ (le_refl _),
      length_toLatin1]

/-- A use of the amended C4: three characters, one of them above 0xff, under a cap of
four. -/
theorem on_txtAscii_textEdited_counts_witness :
    (split (on_txtAscii_textEdited (setMaxLength (fresh 32767 32767 32767) 4)
      [0x41, 0x141, 0]).ui.txtHex.text).length = 3 ∧
    (on_txtAscii_textEdited (setMaxLength (fresh 32767 32767 32767) 4)
      [0x41, 0x141, 0]).ui.txtUTF16.text.length = 3 / 2 :=
  on_txtAscii_textEdited_counts (setMaxLength (fresh 32767 32767 32767) 4) 4 [0x41, 0x141, 0]
    ⟨rfl, rfl, rfl⟩ (by decide)

/-- C5, the claim as stated fails: after `setMaxLength 1431655766` the hex cap is the
32-bit product 3 * 1431655766, which is 2, and `setValue` of the bytes 1, 2, 3, well
within the character cap, leaves the hex view `01` and not `01 02 03`. -/
theorem rendering_counterexample :
    (([1, 2, 3] : QByteArray).length : Int) ≤
      activeCap (setMaxLength (fresh 32767 32767 32767) 1431655766) [1, 2, 3] ∧
    (setValue (setMaxLength (fresh 32767 32767 32767) 1431655766) [1, 2, 3]).ui.txtHex.text
      = "01".toList.map Char.toNat ∧
    (setValue (setMaxLength (fresh 32767 32767 32767) 1431655766) [1, 2, 3]).ui.txtHex.text
      ≠ List.intercalate [SPACE] (([1, 2, 3] : QByteArray).map twoDigitHex) := by
  decide

/-- C5, amended. Rendering by `setValue`: for every byte sequence `b` within the active
cap, provided three times that cap is a value of a 32-bit `int`, the hex view is the
two-digit lower-case hexadecimal form of each byte joined by single spaces, and the
unit view has `b.length / 2` code units, unit `k` being `b[2k] + 256 * b[2k+1]`, so
that an unpaired last byte adds nothing to it. For the bytes 0x41, 0x00 the hex view
reads `41 00` and the unit view is the one unit 0x0041. -/
theorem setValue_rendering (st : BinaryString) (b : QByteArray)
    (hb : ∀ x ∈ b, x < 256) (hinv : Inv st) (hlen : (b.length : Int) ≤ activeCap st b)
    (hfit : fitsInt32 (3 * activeCap st b)) :
    (setValue st b).ui.txtHex.text = List.intercalate [SPACE] (b.map twoDigitHex) ∧
    (setValue st b).ui.txtUTF16.text.length = b.length / 2 ∧
    (∀ k, k < b.length / 2 →
      (setValue st b).ui.txtUTF16.text[k]? =
        some (b.getD (2 * k) 0 + 256 * b.getD (2 * k + 1) 0)) ∧
    (b = [0x41, 0x00] →
      (setValue st b).ui.txtHex.text = "41 00".toList.map Char.toNat ∧
      (setValue st b).ui.txtUTF16.text = [0x0041]) := by
  have h1 := setValue_txtHex_text st b hb hinv hlen (fun _ => hfit.2)
  have h2 := setValue_txtUTF16_text st b hb hinv hlen (fun _ => hfit.2)
  refine ⟨?_, ?_, ?_, ?_⟩
  · rw [h1, map_hex2_eq b hb]
  · rw [h2, length_pairLE _ _ (le_refl _)]
  · intro k hk
    rw [h2, getElem?_pairLE k b hk]
  · intro hE
    rw [h1, h2, hE]
    decide

/-- A use of the amended C5: the bytes 0x41, 0x00 and an unpaired 0xff in MemoryEditing
mode. -/
theorem setValue_rendering_witness :
    (setValue (fresh 32767 32767 32767) [0x41, 0x00, 0xff]).ui.txtHex.text =
      "41 00 ff".toList.map Char.toNat ∧
    (setValue (fresh 32767 32767 32767) [0x41, 0x00, 0xff]).ui.txtUTF16.text.length = 1 :=
  ⟨(setValue_rendering (fresh 32767 32767 32767) [0x41, 0x00, 0xff] (by decide)
      (by intro h; cases h) (by decide) ⟨by decide, by decide⟩).1,
   (setValue_rendering (fresh 32767 32767 32767) [0x41, 0x00, 0xff] (by decide)
      (by intro h; cases h) (by decide) ⟨by decide, by decide⟩).2.1⟩

/-- C6, the claim as stated fails: for the hex text `41 zz 42` the token `zz` is not
skipped, `value` returns the three bytes 0x41, 0x00, 0x42 and the hex-view edit
handler puts the same three characters into the character view. -/
theorem malformed_token_counterexample :
    value (typeHex (fresh 32767 32767 32767) ("41 zz 42".toList.map Char.toNat))
      = [0x41, 0x00, 0x42] ∧
    value (typeHex (fresh 32767 32767 32767) ("41 zz 42".toList.map Char.toNat))
      ≠ [0x41, 0x42] ∧
    (on_txtHex_textEdited (fresh 32767 32767 32767)
      ("41 zz 42".toList.map Char.toNat)).ui.txtAscii.text = [0x41, 0x00, 0x42] := by
  decide

/-- C6, amended. For every hex-view text `value` returns exactly one byte for every
space-separated token, in order: for token `i`, the byte `v` when the token is made of
hexadecimal digits only and writes the number `v` below 256, and the byte 0 (the
token is not skipped) when the token holds a character that is neither a hexadecimal
digit nor a plus sign, `x`, `X` or white space; the hex-view edit handler likewise
adds the character of code 0 at position `i` of the character view for such a token,
as far as the character cap reaches. -/
theorem malformed_token_gives_zero (st : BinaryString) (text : QString) (i : Nat)
    (t : QString) (ht : (split text)[i]? = some t) :
    (value (typeHex st text)).length = (split text).length ∧
    (∀ v, parseHexDigits t 0 = some v → v < 256 →
      (value (typeHex st text))[i]? = some v) ∧
    ((∃ x ∈ t, foreignChar x = true) →
      (value (typeHex st text))[i]? = some 0 ∧
      (st.ui.txtAscii.maxLength < 0 ∨ (i : Int) < st.ui.txtAscii.maxLength →
        (on_txtHex_textEdited st text).ui.txtAscii.text[i]? = some 0)) := by
  have hne : t ≠ [] := split_ne_nil text t (mem_of_getElem?_eq _ i t ht)
  have hval : (value (typeHex st text))[i]? = some (toUInt16 t % 256) :=
    getElem?_value (typeHex st text) i t ht
  refine ⟨?_, ?_, ?_⟩
  · rw [value_eq_hexBytes]
    simp [hexBytes, typeHex]
  · intro v hv hlt
    rw [hval, toUInt16_of_digits t v hne hv, if_pos (by omega), Nat.mod_eq_of_lt hlt]
  · rintro ⟨x, hx, hf⟩
    have h0 : toUInt16 t = 0 := toUInt16_of_foreign t x hx hf
    refine ⟨by rw [hval, h0], fun hcap => ?_⟩
    rw [getElem?_on_txtHex_txtAscii st text i t ht hcap, h0]

/-- A use of the amended C6: the second token of `41 zz 42`. -/
theorem malformed_token_gives_zero_witness :
    (value (typeHex (fresh 32767 32767 32767) ("41 zz 42".toList.map Char.toNat)))[1]?
      = some 0 :=
  ((malformed_token_gives_zero (fresh 32767 32767 32767) ("41 zz 42".toList.map Char.toNat)
    1 ("zz".toList.map Char.toNat) (by decide)).2.2 ⟨122, by decide, by decide⟩).1

/-- C7, the claim as stated fails: for the one character U+0141 the character-view
edit handler emits the token `3f`, the question mark of the Latin-1 conversion, and
not `41`, the low 8 bits of the code. And in an editor whose three line edits have the
same limit, a text of characters `A` within the character cap leaves a hex view cut to
the hex cap: with the limit 30 and 30 characters there is no token for the character
at position 20, with the limit 32767 of a new line edit and 20000 characters none for
the character at position 19000. -/
theorem low_byte_counterexample :
    (on_txtAscii_textEdited (setMaxLength (fresh 32767 32767 32767) 4) [0x141]).ui.txtHex.text
      = "3f".toList.map Char.toNat ∧
    (on_txtAscii_textEdited (setMaxLength (fresh 32767 32767 32767) 4) [0x141]).ui.txtHex.text
      ≠ twoDigitHex (0x141 % 256) ∧
    value (on_txtAscii_textEdited (setMaxLength (fresh 32767 32767 32767) 4) [0x141])
      = [0x3f] ∧
    ((List.replicate 30 0x41).length : Int) ≤ (fresh 30 30 30).ui.txtAscii.maxLength ∧
    (List.replicate 30 0x41)[20]? = some 0x41 ∧
    (split (on_txtAscii_textEdited (fresh 30 30 30)
      (List.replicate 30 0x41)).ui.txtHex.text)[20]? = none ∧
    ((List.replicate 20000 0x41).length : Int) ≤
      (fresh 32767 32767 32767).ui.txtAscii.maxLength ∧
    (List.replicate 20000 0x41)[19000]? = some 0x41 ∧
    (split (on_txtAscii_textEdited (fresh 32767 32767 32767)
      (List.replicate 20000 0x41)).ui.txtHex.text)[19000]? = none :=
  ⟨by decide, by decide, by decide, by decide, by decide, by decide,
    default_ascii_token_missing.1, default_ascii_token_missing.2.1,
    default_ascii_token_missing.2.2⟩

/-- C7, amended. In an editor whose caps are character `c`, unit `c / 2`, hex `3 * c`,
as `setEntriesMaxLength c` sets them, for every character-view text within the
character cap and every character of it whose code is at most 0xff, the
character-view edit handler emits, at the position of that character, the hex token of
the byte equal to the code (which is the code mod 256), and `value` then holds that
byte there. -/
theorem latin1_char_byte (st : BinaryString) (c : Int) (text : QString) (i ch : Nat)
    (hcaps : CapsOf st c) (hlen : (text.length : Int) ≤ c)
    (hi : text[i]? = some ch) (hch : ch ≤ 0xff) :
    (split (on_txtAscii_textEdited st text).ui.txtHex.text)[i]? =
      some (twoDigitHex (ch % 256)) ∧
    (value (on_txtAscii_textEdited st text))[i]? = some (ch % 256) := by
  have hl : ((toLatin1 text).length : Int) ≤ c := by rw [length_toLatin1]; exact hlen
  have hm : ch % 256 = ch := Nat.mod_eq_of_lt (by omega)
  refine ⟨?_, ?_⟩
  · rw [on_txtAscii_textEdited_txtHex, split_setText_hex _ _ c hcaps.2.2 (toLatin1_lt text),
      left_of_le _ _ hl, List.getElem?_map, getElem?_toLatin1 text i ch hi hch, hm]
    exact congrArg some (hex2_eq_twoDigitHex ch (by omega))
  · rw [value_on_txtAscii st c text hcaps, left_of_le _ _ hl,
      getElem?_toLatin1 text i ch hi hch, hm]

/-- A use of the amended C7: the character 0xe9 in second place. -/
theorem latin1_char_byte_witness :
    (split (on_txtAscii_textEdited (setMaxLength (fresh 32767 32767 32767) 4)
      [0x41, 0xe9]).ui.txtHex.text)[1]? = some (twoDigitHex (0xe9 % 256)) ∧
    (value (on_txtAscii_textEdited (setMaxLength (fresh 32767 32767 32767) 4)
      [0x41, 0xe9]))[1]? = some (0xe9 % 256) :=
  latin1_char_byte (setMaxLength (fresh 32767 32767 32767) 4) 4 [0x41, 0xe9] 1 0xe9
    ⟨rfl, rfl, rfl⟩ (by decide) (by decide) (by decide)

/-- C8, the claim as stated fails: the token `100000041` writes a number whose low 8
bits are 0x41, but it does not fit 32 bits, the conversion fails, and both `value`
and the hex-view edit handler produce the byte 0. And the character of a token lies in
the character view only within the character cap: under the maximum length 3 the hex
text `1 2 3 141` gives `value` the byte 0x41 at position 3, and the character view,
cut to three characters, nothing there. -/
theorem wide_token_counterexample :
    parseHexDigits ("100000041".toList.map Char.toNat) 0 = some 0x100000041 ∧
    0x100000041 % 256 = 0x41 ∧
    value (typeHex (fresh 32767 32767 32767) ("100000041".toList.map Char.toNat)) = [0] ∧
    (on_txtHex_textEdited (fresh 32767 32767 32767)
      ("100000041".toList.map Char.toNat)).ui.txtAscii.text = [0] ∧
    (value (typeHex (setMaxLength (fresh 32767 32767 32767) 3)
      ("1 2 3 141".toList.map Char.toNat)))[3]? = some 0x41 ∧
    (on_txtHex_textEdited (setMaxLength (fresh 32767 32767 32767) 3)
      ("1 2 3 141".toList.map Char.toNat)).ui.txtAscii.text[3]? = none := by
  decide

/-- C8, amended. For every hex token made only of hexadecimal digits, writing the
number `v` (in particular a `v` above 255): when `v` is below 2^32, both `value` and
the hex-view edit handler produce the byte `v % 256` for it; when `v` is 2^32 or more
the conversion fails and both produce the byte 0. `value` holds the byte at the
position of the token whatever the caps are; the character view holds the character
of the handler at that position when the position is within the character cap. -/
theorem wide_token_byte (st : BinaryString) (text : QString) (i : Nat) (t : QString)
    (v : Nat) (ht : (split text)[i]? = some t) (hv : parseHexDigits t 0 = some v) :
    (v < 2 ^ 32 →
      (value (typeHex st text))[i]? = some (v % 256) ∧
      (st.ui.txtAscii.maxLength < 0 ∨ (i : Int) < st.ui.txtAscii.maxLength →
        (on_txtHex_textEdited st text).ui.txtAscii.text[i]? = some (v % 256))) ∧
    (2 ^ 32 ≤ v →
      (value (typeHex st text))[i]? = some 0 ∧
      (st.ui.txtAscii.maxLength < 0 ∨ (i : Int) < st.ui.txtAscii.maxLength →
        (on_txtHex_textEdited st text).ui.txtAscii.text[i]? = some 0)) := by
  have hne : t ≠ [] := split_ne_nil text t (mem_of_getElem?_eq _ i t ht)
  have hval : (value (typeHex st text))[i]? = some (toUInt16 t % 256) :=
    getElem?_value (typeHex st text) i t ht
  have hu := toUInt16_of_digits t v hne hv
  refine ⟨fun h => ?_, fun h => ?_⟩
  · rw [if_pos h] at hu
    refine ⟨by rw [hval, hu], fun hcap => ?_⟩
    rw [getElem?_on_txtHex_txtAscii st text i t ht hcap, hu]
  · rw [if_neg (by omega)] at hu
    refine ⟨by rw [hval, hu], fun hcap => ?_⟩
    rw [getElem?_on_txtHex_txtAscii st text i t ht hcap, hu]

/-- A use of the amended C8: the token `141`, fourth of a text under the maximum length
3, gives `value` the byte 0x41; and as second token the character view holds it too. -/
theorem wide_token_byte_witness :
    (value (typeHex (setMaxLength (fresh 32767 32767 32767) 3)
      ("1 2 3 141".toList.map Char.toNat)))[3]? = some (0x141 % 256) ∧
    (on_txtHex_textEdited (fresh 32767 32767 32767)
      ("00 141".toList.map Char.toNat)).ui.txtAscii.text[1]? = some (0x141 % 256) :=
  ⟨((wide_token_byte (setMaxLength (fresh 32767 32767 32767) 3)
      ("1 2 3 141".toList.map Char.toNat) 3 ("141".toList.map Char.toNat) 0x141
      (by decide) (by decide)).1 (by decide)).1,
   ((wide_token_byte (fresh 32767 32767 32767) ("00 141".toList.map Char.toNat) 1
      ("141".toList.map Char.toNat) 0x141 (by decide) (by decide)).1 (by decide)).2
      (by decide)⟩

/-- C9, the claim as stated fails: in an editor whose three line edits have the same
limit, as a constructed widget has before any limit is set, the bytes of a unit text
within the unit cap are cut to the character cap and their rendering to the hex cap.
With the limit 30, a unit-view text of 16 code units leaves a character view of 30
characters and a hex view of 10 tokens, not 32 of each, and the hex-view edit handler
applied to that hex view gives a unit view of 5 units; with the limit 32767 of a new
line edit, 20000 code units leave fewer than 40000 characters. -/
theorem unit_bytes_counterexample :
    ((List.replicate 16 0x4142).length : Int) ≤ (fresh 30 30 30).ui.txtUTF16.maxLength ∧
    (on_txtUTF16_textEdited (fresh 30 30 30)
      (List.replicate 16 0x4142)).ui.txtAscii.text.length = 30 ∧
    (split (on_txtUTF16_textEdited (fresh 30 30 30)
      (List.replicate 16 0x4142)).ui.txtHex.text).length = 10 ∧
    (on_txtHex_textEdited (on_txtUTF16_textEdited (fresh 30 30 30) (List.replicate 16 0x4142))
      (on_txtUTF16_textEdited (fresh 30 30 30)
        (List.replicate 16 0x4142)).ui.txtHex.text).ui.txtUTF16.text.length = 5 ∧
    ((List.replicate 20000 0x4142).length : Int) ≤
      (fresh 32767 32767 32767).ui.txtUTF16.maxLength ∧
    (on_txtUTF16_textEdited (fresh 32767 32767 32767)
      (List.replicate 20000 0x4142)).ui.txtAscii.text.length
      < 2 * (List.replicate 20000 0x4142).length :=
  ⟨by decide, by decide, by decide, by decide, default_utf16_counts.1,
    default_utf16_counts.2⟩

/-- C9, amended. In an editor whose caps are character `c`, unit `c / 2`, hex `3 * c`,
as `setEntriesMaxLength c` sets them, for every unit-view text `u` of `m` 16-bit code
units, `m` within the unit cap, the unit-view edit handler leaves a hex view of exactly
`2 * m` tokens and a character view of `2 * m` characters; unit `k` yields the byte
`u[k] % 256`, then the byte `u[k] / 256`, in the character view and, decoded, in the
hex view; and the hex-view edit handler applied to that hex view gives back `u` as the
unit view. -/
theorem on_txtUTF16_textEdited_bytes (st : BinaryString) (c : Int) (u : QString)
    (hcaps : CapsOf st c) (hlen : (u.length : Int) ≤ Int.tdiv c 2)
    (hu : ∀ x ∈ u, x < 65536) :
    (split (on_txtUTF16_textEdited st u).ui.txtHex.text).length = 2 * u.length ∧
    (on_txtUTF16_textEdited st u).ui.txtAscii.text.length = 2 * u.length ∧
    (on_txtUTF16_textEdited st u).ui.txtAscii.text = leBytes u ∧
    decodeHex (on_txtUTF16_textEdited st u).ui.txtHex.text = some (leBytes u) ∧
    (on_txtHex_textEdited (on_txtUTF16_textEdited st u)
      (on_txtUTF16_textEdited st u).ui.txtHex.text).ui.txtUTF16.text = u := by
  have hfit : (unitBytes u).length = 0 ∨ ((unitBytes u).length : Int) ≤ c := by
    rw [length_unitBytes]
    by_cases hneg : c < 0
    · have := tdiv2_nonpos c hneg
      left; omega
    · have h2 : Int.tdiv c 2 = c / 2 := Int.tdiv_eq_ediv (by omega) (by decide)
      right; omega
  have hleft : left (unitBytes u) c = unitBytes u := by
    rcases hfit with h0 | h1
    · rw [List.length_eq_zero.1 h0, left_nil]
    · exact left_of_le _ _ h1
  have hsplit : split (on_txtUTF16_textEdited st u).ui.txtHex.text = (unitBytes u).map hex2 := by
    rw [on_txtUTF16_textEdited_txtHex, split_setText_hex _ _ c hcaps.2.2 (unitBytes_lt u), hleft]
  have hasc : (on_txtUTF16_textEdited st u).ui.txtAscii.text = unitBytes u := by
    rw [on_txtUTF16_textEdited_txtAscii, setText_text_left, hcaps.1, hleft]
  have hbytes : hexBytes (on_txtUTF16_textEdited st u).ui.txtHex.text = unitBytes u := by
    unfold hexBytes
    rw [hsplit, map_toUInt16_hex2 _ (unitBytes_lt u)]
  refine ⟨?_, ?_, ?_, ?_, ?_⟩
  · rw [hsplit, List.length_map, length_unitBytes]
  · rw [hasc, length_unitBytes]
  · rw [hasc, unitBytes_eq_leBytes u hu]
  · unfold decodeHex
    rw [hsplit, decodeTokens_hex2 _ (unitBytes_lt u), unitBytes_eq_leBytes u hu]
  · rw [on_txtHex_textEdited_txtUTF16, hbytes, pairLE_unitBytes u hu, setText_text_left,
      on_txtUTF16_textEdited_txtUTF16, hcaps.2.1]
    exact left_of_le u _ hlen

/-- A use of the amended C9: two units, one of them a surrogate, under a character cap
of four. -/
theorem on_txtUTF16_textEdited_bytes_witness :
    (on_txtUTF16_textEdited (setMaxLength (fresh 32767 32767 32767) 4)
      [0x4142, 0xd800]).ui.txtAscii.text = leBytes [0x4142, 0xd800] ∧
    (on_txtHex_textEdited
      (on_txtUTF16_textEdited (setMaxLength (fresh 32767 32767 32767) 4) [0x4142, 0xd800])
      (on_txtUTF16_textEdited (setMaxLength (fresh 32767 32767 32767) 4)
        [0x4142, 0xd800]).ui.txtHex.text).ui.txtUTF16.text = [0x4142, 0xd800] :=
  ⟨(on_txtUTF16_textEdited_bytes (setMaxLength (fresh 32767 32767 32767) 4) 4
      [0x4142, 0xd800] ⟨rfl, rfl, rfl⟩ (by decide) (by decide)).2.2.1,
   (on_txtUTF16_textEdited_bytes (setMaxLength (fresh 32767 32767 32767) 4) 4
      [0x4142, 0xd800] ⟨rfl, rfl, rfl⟩ (by decide) (by decide)).2.2.2.2⟩

/-- C10, the claim as stated fails: the hex cap is the product `n * 3` formed in a 32-bit
`int`; for `n = 715827883` it is -2147483647 and not `3 * n`. -/
theorem setMaxLength_caps_counterexample :
    (0 : Int) < 715827883 ∧
    (setMaxLength (fresh 32767 32767 32767) 715827883).ui.txtAscii.maxLength = 715827883 ∧
    (setMaxLength (fresh 32767 32767 32767) 715827883).ui.txtHex.maxLength = -2147483647 ∧
    (setMaxLength (fresh 32767 32767 32767) 715827883).ui.txtHex.maxLength
      ≠ 3 * 715827883 := by
  decide

/-- C10, amended. For every `n` with `0 < n ≤ 715827882`, `setMaxLength n` leaves the
editor in LengthLimited mode with the keep-size box hidden and the caps character `n`,
unit `n / 2`, hex `3 * n`; and `setMaxLength 0` leaves it in MemoryEditing mode with the
box shown and the caps character 10922, unit 5461, hex 32766. -/
theorem setMaxLength_caps (st : BinaryString) (n : Int) :
    (0 < n → n ≤ 715827882 →
      (setMaxLength st n).mode_ = Mode.LengthLimited ∧
      (setMaxLength st n).ui.keepSize.visible = false ∧
      (setMaxLength st n).ui.txtAscii.maxLength = n ∧
      (setMaxLength st n).ui.txtUTF16.maxLength = n / 2 ∧
      (setMaxLength st n).ui.txtHex.maxLength = 3 * n) ∧
    ((setMaxLength st 0).mode_ = Mode.MemoryEditing ∧
      (setMaxLength st 0).ui.keepSize.visible = true ∧
      (setMaxLength st 0).ui.txtAscii.maxLength = 10922 ∧
      (setMaxLength st 0).ui.txtUTF16.maxLength = 5461 ∧
      (setMaxLength st 0).ui.txtHex.maxLength = 32766) := by
  refine ⟨fun hn hmax => ?_, ?_⟩
  · rw [setMaxLength_pos st n (by omega)]
    have hc := capsOf_setEntriesMaxLength
      { st with
        requestedMaxLength_ := n,
        mode_ := Mode.LengthLimited,
        ui := { st.ui with keepSize := { st.ui.keepSize with visible := false } } } n
      (by simp only [charHexLength]; omega) (by simp only [charHexLength]; omega)
    refine ⟨rfl, rfl, hc.1, ?_, ?_⟩
    · rw [hc.2.1, Int.tdiv_eq_ediv (by omega) (by decide)]
    · rw [hc.2.2]; simp only [charHexLength]; omega
  · exact ⟨rfl, rfl, rfl, rfl, rfl⟩

/-- A use of the amended C10: the maximum length 7. -/
theorem setMaxLength_caps_witness :
    (setMaxLength (fresh 32767 32767 32767) 7).mode_ = Mode.LengthLimited ∧
    (setMaxLength (fresh 32767 32767 32767) 7).ui.keepSize.visible = false ∧
    (setMaxLength (fresh 32767 32767 32767) 7).ui.txtAscii.maxLength = 7 ∧
    (setMaxLength (fresh 32767 32767 32767) 7).ui.txtUTF16.maxLength = 7 / 2 ∧
    (setMaxLength (fresh 32767 32767 32767) 7).ui.txtHex.maxLength = 3 * 7 :=
  (setMaxLength_caps (fresh 32767 32767 32767) 7).1 (by decide) (by decide)

/-- C11. Keep-size toggle in MemoryEditing mode: after `setMaxLength 0` and `setValue b`,
with `L` the length of `b`, the toggle handler run with keep-size unchecked sets the
caps character 10922, unit 5461, hex 32766, and run afterwards with keep-size on
(checked or partially checked) it sets the caps character `L`, unit `L / 2`,
hex `3 * L`. The hex cap is a product formed in a 32-bit `int`; it is `3 * L` for every
byte array that can be loaded, the hex text of which has `3 * L` code units:
`3 * L ≤ 2147483647`. -/
theorem toggle_caps (st : BinaryString) (b : QByteArray) (cs : CheckState)
    (hcs : cs ≠ CheckState.Unchecked) :
    ((toggleKeepSize (setValue (setMaxLength st 0) b)
        CheckState.Unchecked).ui.txtAscii.maxLength = 10922 ∧
      (toggleKeepSize (setValue (setMaxLength st 0) b)
        CheckState.Unchecked).ui.txtUTF16.maxLength = 5461 ∧
      (toggleKeepSize (setValue (setMaxLength st 0) b)
        CheckState.Unchecked).ui.txtHex.maxLength = 32766) ∧
    ((toggleKeepSize (toggleKeepSize (setValue (setMaxLength st 0) b)
        CheckState.Unchecked) cs).ui.txtAscii.maxLength = (b.length : Int) ∧
      (toggleKeepSize (toggleKeepSize (setValue (setMaxLength st 0) b)
        CheckState.Unchecked) cs).ui.txtUTF16.maxLength = ((b.length / 2 : Nat) : Int) ∧
      (3 * (b.length : Int) ≤ 2147483647 →
        (toggleKeepSize (toggleKeepSize (setValue (setMaxLength st 0) b)
          CheckState.Unchecked) cs).ui.txtHex.maxLength = 3 * (b.length : Int))) := by
  have h0 := setValue_after_unbounded st b
  have h1 := capsOf_toggle_unchecked (setValue (setMaxLength st 0) b) h0.1
  have hm : (toggleKeepSize (setValue (setMaxLength st 0) b) CheckState.Unchecked).mode_
      = Mode.MemoryEditing := by rw [toggleKeepSize_mode]; exact h0.1
  have hL : (toggleKeepSize (setValue (setMaxLength st 0) b)
      CheckState.Unchecked).valueOriginalLength_ = (b.length : Int) := by
    rw [toggleKeepSize_valueOriginalLength, h0.2]
  have h2 := caps_toggle_checked _ cs hm hcs
  rw [hL] at h2
  refine ⟨⟨?_, ?_, ?_⟩, ⟨h2.1, ?_, fun hload => ?_⟩⟩
  · rw [h1.1]; rfl
  · rw [h1.2.1]; rfl
  · rw [h1.2.2]; rfl
  · rw [h2.2.1, Int.tdiv_eq_ediv (by omega) (by decide)]; omega
  · rw [h2.2.2, wrapInt32_of_fits _ (by simp only [charHexLength]; omega)
      (by simp only [charHexLength]; omega)]
    simp only [charHexLength]; omega

/-- A use of C11: five bytes loaded, keep-size switched off and then checked. -/
theorem toggle_caps_witness :
    (toggleKeepSize (toggleKeepSize (setValue (setMaxLength (fresh 32767 32767 32767) 0)
      [1, 2, 3, 4, 5]) CheckState.Unchecked) CheckState.Checked).ui.txtAscii.maxLength = 5 ∧
    (toggleKeepSize (toggleKeepSize (setValue (setMaxLength (fresh 32767 32767 32767) 0)
      [1, 2, 3, 4, 5]) CheckState.Unchecked) CheckState.Checked).ui.txtUTF16.maxLength = 2 ∧
    (toggleKeepSize (toggleKeepSize (setValue (setMaxLength (fresh 32767 32767 32767) 0)
      [1, 2, 3, 4, 5]) CheckState.Unchecked) CheckState.Checked).ui.txtHex.maxLength = 15 :=
  ⟨(toggle_caps (fresh 32767 32767 32767) [1, 2, 3, 4, 5] CheckState.Checked
      (by decide)).2.1,
   (toggle_caps (fresh 32767 32767 32767) [1, 2, 3, 4, 5] CheckState.Checked
      (by decide)).2.2.1,
   (toggle_caps (fresh 32767 32767 32767) [1, 2, 3, 4, 5] CheckState.Checked
      (by decide)).2.2.2 (by decide)⟩

/-- C12. The toggle handler acts in MemoryEditing mode only: `setMaxLength n` with
`n > 0` leaves the editor in LengthLimited mode, and in every state of that mode the
slot `on_keepSize_stateChanged` returns the state as it is, whatever the state of the
keep-size box, so that after the user sets the box to any state the three caps, the
mode, the recorded original length and the three view texts are unchanged. -/
theorem toggle_frame_limited (st0 : BinaryString) (n : Int) (hn : 0 < n)
    (st : BinaryString) (hm : st.mode_ = Mode.LengthLimited) (cs : CheckState) (s : Int) :
    (setMaxLength st0 n).mode_ = Mode.LengthLimited ∧
    on_keepSize_stateChanged st s = st ∧
    (toggleKeepSize st cs).ui.txtAscii = st.ui.txtAscii ∧
    (toggleKeepSize st cs).ui.txtUTF16 = st.ui.txtUTF16 ∧
    (toggleKeepSize st cs).ui.txtHex = st.ui.txtHex ∧
    (toggleKeepSize st cs).mode_ = st.mode_ ∧
    (toggleKeepSize st cs).valueOriginalLength_ = st.valueOriginalLength_ := by
  have h0 : (setMaxLength st0 n).mode_ = Mode.LengthLimited := by
    rw [setMaxLength_pos st0 n (by omega)]; rfl
  have ht : toggleKeepSize st cs =
      { st with ui := { st.ui with keepSize := { st.ui.keepSize with checkState := cs } } } := by
    unfold toggleKeepSize
    exact on_keepSize_stateChanged_of_limited _ _ hm
  refine ⟨h0, on_keepSize_stateChanged_of_limited _ s hm, ?_, ?_, ?_, ?_, ?_⟩ <;> rw [ht]

/-- A use of C12: the box checked after two bytes were loaded into an editor limited to
three characters. -/
theorem toggle_frame_limited_witness :
    on_keepSize_stateChanged (setValue (setMaxLength (fresh 32767 32767 32767) 3) [1, 2]) 2 =
      setValue (setMaxLength (fresh 32767 32767 32767) 3) [1, 2] ∧
    (toggleKeepSize (setValue (setMaxLength (fresh 32767 32767 32767) 3) [1, 2])
      CheckState.Checked).ui.txtHex =
      (setValue (setMaxLength (fresh 32767 32767 32767) 3) [1, 2]).ui.txtHex :=
  ⟨(toggle_frame_limited (fresh 32767 32767 32767) 3 (by decide)
      (setValue (setMaxLength (fresh 32767 32767 32767) 3) [1, 2]) (by decide)
      CheckState.Checked 2).2.1,
   (toggle_frame_limited (fresh 32767 32767 32767) 3 (by decide)
      (setValue (setMaxLength (fresh 32767 32767 32767) 3) [1, 2]) (by decide)
      CheckState.Checked 2).2.2.2.2.1⟩

/-- C13. Truncation on load: in LengthLimited mode with maximum length `n > 0`, for every
byte sequence `b` longer than `n`, `value` called right after `setValue b` returns
exactly the first `n` bytes of `b`, the character view holds the first `n` characters,
and the hex view holds the first `n` two-digit tokens, each whole and the last one
followed by a space: the rendering cut at `3 * n` characters. -/
theorem setValue_truncates (st : BinaryString) (b : QByteArray) (n : Nat)
    (hb : ∀ x ∈ b, x < 256) (hinv : Inv st) (hm : st.mode_ = Mode.LengthLimited)
    (hreq : st.requestedMaxLength_ = (n : Int)) (hn : 0 < n) (hlen : n < b.length) :
    value (setValue st b) = b.take n ∧
    (setValue st b).ui.txtAscii.text = b.take n ∧
    (setValue st b).ui.txtHex.text =
      List.intercalate [SPACE] ((b.take n).map twoDigitHex) ++ [SPACE] ∧
    (setValue st b).ui.txtHex.text.length = 3 * n := by
  have hcap : activeCap st b = (n : Int) := by
    unfold activeCap
    rw [hm]
    exact hreq
  have hfit : st.mode_ = Mode.MemoryEditing → 3 * activeCap st b ≤ 2147483647 := by
    intro h
    rw [hm] at h
    cases h
  have hhex := setValue_txtHex_text_cut st b n hb hinv hfit hcap hlen
  have htake : ∀ x ∈ b.take n, x < 256 := fun x hx => hb x (List.mem_of_mem_take hx)
  have hform : (setValue st b).ui.txtHex.text =
      List.intercalate [SPACE] ((b.take n).map twoDigitHex) ++ [SPACE] := by
    rw [hhex, renderHex, map_hex2_eq _ htake]
    cases hT : b.take n with
    | nil =>
      have hl : (b.take n).length = n := by rw [List.length_take]; omega
      rw [hT] at hl
      simp at hl
      omega
    | cons x xs => exact endEach_eq_intercalate _ _
  refine ⟨?_, ?_, hform, ?_⟩
  · rw [value_setValue st b hb hinv hfit, hcap, left_natCast]
  · rw [setValue_txtAscii, setText_text_left, (capsOf_preload st b hinv hfit).1, hcap,
      fromLatin1_of_lt b hb, left_natCast]
  · have hl : (b.take n).length = n := by rw [List.length_take]; omega
    have h3 := length_intercalate_hex2 (b.take n)
    rw [hform, ← map_hex2_eq _ htake, List.length_append, h3, hl]
    simp only [List.length_cons, List.length_nil]
    omega

/-- A use of C13: five bytes loaded into an editor limited to two characters. -/
theorem setValue_truncates_witness :
    value (setValue (setMaxLength (fresh 32767 32767 32767) 2) [0x41, 0x00, 0xff, 0xd8, 0x01])
      = [0x41, 0x00] ∧
    (setValue (setMaxLength (fresh 32767 32767 32767) 2)
      [0x41, 0x00, 0xff, 0xd8, 0x01]).ui.txtAscii.text = [0x41, 0x00] :=
  ⟨(setValue_truncates (setMaxLength (fresh 32767 32767 32767) 2)
      [0x41, 0x00, 0xff, 0xd8, 0x01] 2 (by decide) (fun _ => ⟨rfl, rfl, rfl⟩) rfl rfl
      (by decide) (by decide)).1,
   (setValue_truncates (setMaxLength (fresh 32767 32767 32767) 2)
      [0x41, 0x00, 0xff, 0xd8, 0x01] 2 (by decide) (fun _ => ⟨rfl, rfl, rfl⟩) rfl rfl
      (by decide) (by decide)).2.1⟩

/-- C14. The hex cap bounds the result length: for every `n` and every hex-view text of
at most `3 * n` characters in which every space-separated token has at least two
characters, `value` returns at most `n` bytes; and for every hex-view text the number
of bytes `value` returns is the number of non-empty space-separated tokens. -/
theorem value_length_le_cap (st : BinaryString) (n : Nat)
    (hlen : st.ui.txtHex.text.length ≤ 3 * n)
    (htok : ∀ t ∈ nonEmptyTokens st.ui.txtHex.text, 2 ≤ t.length) :
    (value st).length ≤ n ∧
    (∀ st2 : BinaryString, (value st2).length = (nonEmptyTokens st2.ui.txtHex.text).length) := by
  refine ⟨?_, fun st2 => ?_⟩
  · rw [length_value]
    have h1 := splitSkip_length_bound (fun c => c == SPACE) st.ui.txtHex.text []
    have h2 := sum_length_ge (split st.ui.txtHex.text)
      (by rw [split_eq_nonEmptyTokens]; exact htok)
    unfold split at h2 ⊢
    simp only [List.length_nil] at h1
    omega
  · rw [length_value, split_eq_nonEmptyTokens]

/-- A use of C14: the text `41 00 ff` of eight characters under `n = 3`. -/
theorem value_length_le_cap_witness :
    (value (typeHex (fresh 32767 32767 32767) ("41 00 ff".toList.map Char.toNat))).length ≤ 3 :=
  (value_length_le_cap (typeHex (fresh 32767 32767 32767) ("41 00 ff".toList.map Char.toNat))
    3 (by decide) (by decide)).1

end Edb
